import Mathlib

/-!
# vault-plugin-harbor: credential issuance, lease callbacks and the client cache

A shallow embedding of `backend.go`, `client.go`, `path_creds.go` and
`robot_account.go`.  Go strings are Lean strings (sequences of Unicode
characters, UTF-8 encoded where their bytes matter), `time.Duration` is an
integer count of nanoseconds, float64 values are the rationals they denote with
one IEEE rounding per operation, Go `error` values are a small tree of
messages, and the collaborators the plugin talks to (storage, the Harbor REST
client, the clock) are explicit arguments.  Every call to a collaborator is
recorded in the `World`, so that "which remote call was made, with what" is a
statement about data.
-/

namespace Harbor

/-! ## Values shared by all operations -/

/-- Go `error` values: `errors.New` / `fmt.Errorf` without `%w` give `msg`,
`fmt.Errorf("...: %w", err)` gives `wrap` with the text in front of the cause. -/
inductive GoError where
  | msg (text : String)
  | wrap (text : String) (cause : GoError)
deriving DecidableEq

/-- The `interface{}` values found in the `Data` and `InternalData` maps. -/
inductive Value where
  | str (s : String)
  | int (n : Int)
  | bool (b : Bool)
deriving DecidableEq

/-- A `map[string]interface{}` literal, as the list of its entries. -/
abbrev Fields := List (String × Value)

/-- The permission grant `harborModel.RobotPermission`, passed through verbatim. -/
structure RobotPermission where
  Kind : String
  Namespace : String
  Access : List (String × String)
deriving DecidableEq

/-- Modelled from the spec: the declaration of `harborConfig` (it is in
`path_config.go`, not among the sources read here).  The spec gives Config as
`{url, username, password}`; `newClient` reads the fields `URL`, `Username` and
`Password`. -/
structure harborConfig where
  URL : String
  Username : String
  Password : String
deriving DecidableEq

/-- Modelled from the spec: the declaration of `harborRoleEntry` (it is in
`path_roles.go`, not among the sources read here).  The spec gives Role as
`{name, ttl, max_ttl, permissions}`; the code reads the fields `TTL`, `MaxTTL`
(of type `time.Duration`, nanoseconds) and `Permissions`. -/
structure harborRoleEntry where
  TTL : Int
  MaxTTL : Int
  Permissions : List RobotPermission
deriving DecidableEq

/-- The client `harborClient`.  `serial` is the identity of the instance: the
number of `NewRESTClientForHost` calls made before the one that built it. -/
structure harborClient where
  serial : Nat
  host : String
  username : String
  password : String
deriving DecidableEq

/-- The request body `harborModel.RobotCreate` as filled in by `createRobotAccount`. -/
structure RobotCreate where
  Name : String
  Description : String
  Disable : Bool
  Duration : Int
  Level : String
  Permissions : List RobotPermission
deriving DecidableEq

/-- The fields of `harborModel.RobotCreated` that the plugin reads. -/
structure RobotCreated where
  ID : Int
  Name : String
  Secret : String
deriving DecidableEq

/-- The secret `harborRobotAccount`. -/
structure harborRobotAccount where
  ID : Int
  Name : String
  Secret : String
  AuthToken : String
deriving DecidableEq

/-- One call made on the Harbor REST client, with the client it was made on. -/
inductive RemoteCall where
  | newRobotAccount (via : harborClient) (body : RobotCreate)
  | deleteRobotAccountByName (via : harborClient) (name : String)
deriving DecidableEq

/-- What `getConfig(ctx, s)` and `b.getRole(ctx, s, name)` answer on the storage
of the current request.  Both helpers live in files that are not among the
sources read here, so their answers are arguments: a storage error, nothing
stored (`nil, nil`), or the stored value. -/
structure Storage where
  getConfig : Except GoError (Option harborConfig)
  getRole : String → Except GoError (Option harborRoleEntry)

/-- The Harbor side: whether `NewRESTClientForHost` accepts a host and login,
and what the two consumed endpoints answer given the calls made so far. -/
structure Registry where
  newRESTClientForHost : String → String → String → Option GoError
  newRobotAccount : List RemoteCall → RobotCreate → Except GoError RobotCreated
  deleteRobotAccountByName : List RemoteCall → String → Option GoError

/-- The mutable state: the field `b.client` of `harborBackend`, and the record of
what has been done to the collaborators (`dials`: `NewRESTClientForHost` calls,
`loads`: `getConfig` calls, `calls`: Harbor REST calls, oldest first). -/
structure World where
  client : Option harborClient
  dials : Nat
  loads : Nat
  calls : List RemoteCall
deriving DecidableEq

/-- The part of `logical.Secret` the plugin touches: the lease options `TTL` and
`MaxTTL` and the internal data map. -/
structure Secret where
  TTL : Int
  MaxTTL : Int
  InternalData : Fields
deriving DecidableEq

/-- The part of `logical.Response` the plugin fills in. -/
structure Response where
  Data : Fields
  Secret : Secret
deriving DecidableEq

/-- The part of `logical.Request` the plugin reads. -/
structure Request where
  DisplayName : String
  Secret : Secret
deriving DecidableEq

/-- A freshly started backend: nothing cached, nothing done yet. -/
def World.start : World := { client := none, dials := 0, loads := 0, calls := [] }

/-! ## client.go -/

/-- `newClient`: the three emptiness checks in source order, then
`NewRESTClientForHost(URL + "/api/v2.0", Username, Password)`.  The second
component tells whether `NewRESTClientForHost` was reached. -/
def newClient (reg : Registry) (serial : Nat) (config : Option harborConfig) :
    Except GoError harborClient × Bool :=
  match config with
  | none => (.error (.msg "client configuration was nil"), false)
  | some config =>
    if config.Username = "" then
      (.error (.msg "client username was not defined"), false)
    else if config.Password = "" then
      (.error (.msg "client password was not defined"), false)
    else if config.URL = "" then
      (.error (.msg "client URL was not defined"), false)
    else
      match reg.newRESTClientForHost (config.URL ++ "/api/v2.0") config.Username config.Password with
      | some err => (.error err, true)
      | none =>
        (.ok { serial := serial, host := config.URL ++ "/api/v2.0",
               username := config.Username, password := config.Password }, true)

/-! ## backend.go -/

/-- `reset`: clear `b.client`. -/
def reset (w : World) : World := { w with client := none }

/-- `invalidate`: `reset` when the key is `"config"`, nothing otherwise. -/
def invalidate (key : String) (w : World) : World :=
  if key = "config" then reset w else w

/-- The exclusive section of `getClient` (lines 104-118): load the config, take
the empty config when none is stored, build the client and assign the result of
`newClient` to `b.client` (which is nil when `newClient` failed). -/
def getClientSlow (s : Storage) (reg : Registry) (w : World) :
    Except GoError harborClient × World :=
  let w := { w with loads := w.loads + 1 }
  match s.getConfig with
  | .error err => (.error err, w)
  | .ok config =>
    let config := config.getD { URL := "", Username := "", Password := "" }
    match newClient reg w.dials (some config) with
    | (.ok c, dialled) =>
      (.ok c, { w with client := some c, dials := w.dials + (if dialled then 1 else 0) })
    | (.error err, dialled) =>
      (.error err, { w with client := none, dials := w.dials + (if dialled then 1 else 0) })

/-- `getClient` run without interference: the cached client if there is one,
otherwise the exclusive section. -/
def getClient (s : Storage) (reg : Registry) (w : World) :
    Except GoError harborClient × World :=
  match w.client with
  | some c => (.ok c, w)
  | none => getClientSlow s reg w

/-! ## float64 arithmetic, as used by `time.Duration.Hours` -/

/-- The integer nearest to `q`, ties going to the even neighbour. -/
def roundHalfEven (q : ℚ) : ℤ :=
  let f := ⌊q⌋
  if q - f < 1 / 2 then f
  else if 1 / 2 < q - f then f + 1
  else if f % 2 = 0 then f else f + 1

/-- The finite float64 nearest to the exact value `q` (IEEE 754 binary64,
round to nearest, ties to even): 53 significant bits, and the spacing of the
subnormals below `2 ^ (-1022)`.  Overflow to infinity starts near `2 ^ 1024`;
every value formed in this file from an int64 is below `2 ^ 64` in magnitude. -/
def toFloat64 (q : ℚ) : ℚ :=
  if q = 0 then 0
  else
    let e := max (Int.log 2 |q|) (-1022)
    let ulp : ℚ := 2 ^ (e - 52)
    roundHalfEven (q / ulp) * ulp

/-- The conversion `int64(x)` of a float64: the fraction is discarded. -/
def truncToInt (q : ℚ) : ℤ := if 0 ≤ q then ⌊q⌋ else ⌈q⌉

/-- The constant `time.Hour`, in nanoseconds. -/
def Hour : Int := 60 * (60 * (1000 * (1000 * 1000)))

/-- `time.Duration.Hours`: `float64(d / Hour) + float64(d % Hour) / (60*60*1e9)`,
with Go's truncated integer division and one rounding per float64 operation. -/
def Duration.Hours (d : Int) : ℚ :=
  let hour := d.tdiv Hour
  let nsec := d.tmod Hour
  toFloat64 (toFloat64 hour + toFloat64 (toFloat64 nsec / toFloat64 (60 * 60 * 1000000000)))

/-! ## path_creds.go -/

/-- The constant `dayHours = float64(24)`. -/
def dayHours : ℚ := toFloat64 24

/-- The line `maxTTLByDay := int64(roleEntry.MaxTTL.Hours()/dayHours) + 1`. -/
def maxTTLByDay (roleEntry : harborRoleEntry) : Int :=
  truncToInt (toFloat64 (Duration.Hours roleEntry.MaxTTL / dayHours)) + 1

/-- The characters of the bracket expression `[:alnum:]._-`: the ASCII digits
and letters (`[:alnum:]` is `[0-9A-Za-z]`), dot, underscore and hyphen. -/
def inClass (c : Char) : Bool :=
  decide (('0' ≤ c ∧ c ≤ '9') ∨ ('A' ≤ c ∧ c ≤ 'Z') ∨ ('a' ≤ c ∧ c ≤ 'z')) ||
    c == '.' || c == '_' || c == '-'

/-- `regexp.ReplaceAllString` for a pattern that matches exactly the single
characters satisfying `m`: every match is replaced by `repl`, every other
character is copied. -/
def replaceAllString (m : Char → Bool) (src repl : String) : String :=
  ⟨(src.data.map fun c => if m c then repl.data else [c]).flatten⟩

/-- The verb `%d` of `fmt.Sprintf` applied to an `int64`. -/
def fmtD (n : Int) : String := toString n

/-- Lines 80-88 of `createCreds`: the robot account name for a role, a requester
display name and the reading of `time.Now().UnixNano()`. -/
def robotAccountName (roleName displayName : String) (now : Int) : String :=
  let displayName :=
    if displayName ≠ "" then
      replaceAllString (fun c => !inClass c) displayName "-" ++ "."
    else ""
  "vault." ++ roleName ++ "." ++ displayName ++ fmtD now

/-- The bytes `[]byte(s)` of a string: the UTF-8 encoding of its characters. -/
def utf8Char (c : Char) : List Nat :=
  let v := c.toNat
  if v < 0x80 then [v]
  else if v < 0x800 then [0xC0 + v / 64, 0x80 + v % 64]
  else if v < 0x10000 then [0xE0 + v / 4096, 0x80 + v / 64 % 64, 0x80 + v % 64]
  else [0xF0 + v / 262144, 0x80 + v / 4096 % 64, 0x80 + v / 64 % 64, 0x80 + v % 64]

/-- The bytes of a string. -/
def bytes (s : String) : List Nat := (s.data.map utf8Char).flatten

/-- The alphabet of `base64.StdEncoding`. -/
def encodeStd : List Char :=
  "ABCDEFGHIJKLMNOPQRSTUVWXYZabcdefghijklmnopqrstuvwxyz0123456789+/".data

/-- The character for a six-bit value. -/
def b64Char (n : Nat) : Char := encodeStd.getD n 'A'

/-- `base64.StdEncoding.EncodeToString`: three bytes give four characters, a
final group of one or two bytes is padded with `=`. -/
def encodeToString : List Nat → List Char
  | [] => []
  | [a] => [b64Char (a / 4), b64Char (a % 4 * 16), '=', '=']
  | [a, b] => [b64Char (a / 4), b64Char (a % 4 * 16 + b / 16), b64Char (b % 16 * 4), '=']
  | a :: b :: c :: rest =>
    b64Char (a / 4) :: b64Char (a % 4 * 16 + b / 16) :: b64Char (b % 16 * 4 + c / 64) ::
      b64Char (c % 64) :: encodeToString rest

/-- The six-bit value of a character of the alphabet. -/
def b64Value (c : Char) : Option Nat :=
  if 'A' ≤ c ∧ c ≤ 'Z' then some (c.toNat - 65)
  else if 'a' ≤ c ∧ c ≤ 'z' then some (c.toNat - 97 + 26)
  else if '0' ≤ c ∧ c ≤ '9' then some (c.toNat - 48 + 52)
  else if c = '+' then some 62
  else if c = '/' then some 63
  else none

/-- Standard base64 decoding (RFC 4648, padded): the inverse that a consumer of
`robot_account_auth_token` applies. -/
def decodeString : List Char → Option (List Nat)
  | [] => some []
  | c0 :: c1 :: c2 :: c3 :: rest =>
    if c3 = '=' then
      if rest ≠ [] then none
      else if c2 = '=' then
        (b64Value c0).bind fun x0 => (b64Value c1).bind fun x1 =>
          some [x0 * 4 + x1 / 16]
      else
        (b64Value c0).bind fun x0 => (b64Value c1).bind fun x1 => (b64Value c2).bind fun x2 =>
          some [x0 * 4 + x1 / 16, x1 % 16 * 16 + x2 / 4]
    else
      (b64Value c0).bind fun x0 => (b64Value c1).bind fun x1 => (b64Value c2).bind fun x2 =>
        (b64Value c3).bind fun x3 => (decodeString rest).bind fun tail =>
          some ((x0 * 4 + x1 / 16) :: (x1 % 16 * 16 + x2 / 4) :: (x2 % 4 * 64 + x3) :: tail)
  | _ => none

/-- `createRobotAccount`: get the client, send one `NewRobotAccount` request and
build the secret from the answer. -/
def createRobotAccount (s : Storage) (reg : Registry) (robotName : String)
    (roleEntry : harborRoleEntry) (w : World) : Except GoError harborRobotAccount × World :=
  match getClient s reg w with
  | (.error err, w) => (.error err, w)
  | (.ok client, w) =>
    let robotCreate : RobotCreate :=
      { Name := robotName
        Description := "This robot account is created by Vault, please DO NOT edit!"
        Disable := false
        Duration := maxTTLByDay roleEntry
        Level := "system"
        Permissions := roleEntry.Permissions }
    let answer := reg.newRobotAccount w.calls robotCreate
    let w := { w with calls := w.calls ++ [RemoteCall.newRobotAccount client robotCreate] }
    match answer with
    | .error err => (.error (.wrap "error creating Harbor robot account: " err), w)
    | .ok robotCreated =>
      let robotToken := robotCreated.Name ++ ":" ++ robotCreated.Secret
      (.ok { ID := robotCreated.ID
             Name := robotCreated.Name
             Secret := robotCreated.Secret
             AuthToken := ⟨encodeToString (bytes robotToken)⟩ }, w)

/-- The constant `harborRobotAccountType` of `robot_account.go`, the type of the
secret registered by `harborToken`. -/
def harborRobotAccountType : String := "robot_account"

/-- `framework.Secret.Response` of the Vault SDK, which `createCreds` calls on
`b.Secret(harborRobotAccountType)`: the internal map is copied, the key
`secret_type` is set to the type of the secret, and the lease options start from
the default duration of the secret, which `harborToken` leaves at zero. -/
def frameworkSecretResponse (secretType : String) (data internal : Fields) : Response :=
  { Data := data
    Secret := { TTL := 0, MaxTTL := 0,
                InternalData := internal.filter (fun kv => kv.1 != "secret_type") ++
                  [("secret_type", .str secretType)] } }

/-- `createCreds`: name the account, create it, and answer through
`b.Secret(harborRobotAccountType).Response` with the returned data and the
internal data; the lease options are then overwritten only by a positive role
value. -/
def createCreds (s : Storage) (reg : Registry) (req : Request) (roleName : String)
    (role : harborRoleEntry) (now : Int) (w : World) : Except GoError Response × World :=
  let name := robotAccountName roleName req.DisplayName now
  match createRobotAccount s reg name role w with
  | (.error err, w) => (.error err, w)
  | (.ok robotAccount, w) =>
    let resp : Response :=
      frameworkSecretResponse harborRobotAccountType
        [("robot_account_id", .int robotAccount.ID),
         ("robot_account_name", .str robotAccount.Name),
         ("robot_account_secret", .str robotAccount.Secret),
         ("robot_account_auth_token", .str robotAccount.AuthToken)]
        [("role", .str roleName),
         ("robot_account_name", .str name)]
    let resp := if role.TTL > 0 then { resp with Secret := { resp.Secret with TTL := role.TTL } }
                else resp
    let resp := if role.MaxTTL > 0 then
                  { resp with Secret := { resp.Secret with MaxTTL := role.MaxTTL } }
                else resp
    (.ok resp, w)

/-- `pathCredsRead`: look the role up and issue credentials for it. -/
def pathCredsRead (s : Storage) (reg : Registry) (req : Request) (roleName : String)
    (now : Int) (w : World) : Except GoError Response × World :=
  match s.getRole roleName with
  | .error err => (.error (.wrap "error retrieving role: " err), w)
  | .ok none => (.error (.msg "error retrieving role: role is nil"), w)
  | .ok (some roleEntry) => createCreds s reg req roleName roleEntry now w

/-! ## robot_account.go -/

/-- How a lease callback ends: a response, an error, or a Go run-time panic. -/
inductive Outcome (α : Type) where
  | ok (a : α)
  | error (err : GoError)
  | panic (what : String)
deriving DecidableEq

/-- `deleteRobotAccount`: one `DeleteRobotAccountByName` call on the client. -/
def deleteRobotAccount (reg : Registry) (c : harborClient) (robotAccountName : String)
    (w : World) : Option GoError × World :=
  (reg.deleteRobotAccountByName w.calls robotAccountName,
   { w with calls := w.calls ++ [RemoteCall.deleteRobotAccountByName c robotAccountName] })

/-- `robotAccountRevoke`: get the client, read `robot_account_name` from the
internal data of the lease, and delete the account of that name.  Success is the
pair `nil, nil`, here `none`.  `getClient` returns a client whenever it returns
no error, so the test `client == nil` never fires and has no branch here. -/
def robotAccountRevoke (s : Storage) (reg : Registry) (req : Request) (w : World) :
    Except GoError (Option Response) × World :=
  match getClient s reg w with
  | (.error err, w) => (.error err, w)
  | (.ok client, w) =>
    match req.Secret.InternalData.lookup "robot_account_name" with
    | none => (.error (.msg "robot_account_name is missing on the lease"), w)
    | some (.str account) =>
      match deleteRobotAccount reg client account w with
      | (some err, w) => (.error (.wrap "error revoking robot account: " err), w)
      | (none, w) => (.ok none, w)
    | some _ => (.error (.msg "unable convert robot_account_name"), w)

/-- `robotAccountRenew`: read `role` from the internal data (an unchecked type
assertion to `string`), reload the role, and answer with the secret of the
request, its `TTL` / `MaxTTL` overwritten by a positive role value.  The response
shares the secret with the request; the second component is that secret as the
call leaves it. -/
def robotAccountRenew (s : Storage) (req : Request) : Outcome Response × Secret :=
  match req.Secret.InternalData.lookup "role" with
  | none => (.error (.msg "secret is missing role internal data"), req.Secret)
  | some (.str role) =>
    match s.getRole role with
    | .error err => (.error (.wrap "error retrieving role: " err), req.Secret)
    | .ok none => (.error (.msg "error retrieving role: role is nil"), req.Secret)
    | .ok (some roleEntry) =>
      let secret := req.Secret
      let secret := if roleEntry.TTL > 0 then { secret with TTL := roleEntry.TTL } else secret
      let secret :=
        if roleEntry.MaxTTL > 0 then { secret with MaxTTL := roleEntry.MaxTTL } else secret
      (.ok { Data := [], Secret := secret }, secret)
  | some _ => (.panic "interface conversion: interface {} is not string", req.Secret)

/-! ## The lease as the platform keeps it -/

/-- Modelled from the spec: the lease policy the Secrets Platform attaches to a
response, `TTL = role.ttl if > 0 else platform default` and likewise `MaxTTL`;
the plugin leaves a lease option at zero exactly when the role value is not
positive, and the platform (not part of this repository) fills in its default. -/
def leasePolicy (defaultTTL defaultMaxTTL : Int) (secret : Secret) : Int × Int :=
  (if secret.TTL > 0 then secret.TTL else defaultTTL,
   if secret.MaxTTL > 0 then secret.MaxTTL else defaultMaxTTL)

/-- The registry-side validity of an account created with `Duration` days, in
nanoseconds. -/
def validity (days : Int) : Int := days * (24 * Hour)

/-! ## Runs of `getClient` and `invalidate`, one call at a time -/

/-- A call on the client cache: `getClient` with the storage of its request, or
`invalidate` with its key. -/
inductive Op where
  | get (s : Storage)
  | invalidate (key : String)

/-- What a call of a run did: a `getClient` with its result and whether it
constructed the client it returned, or an `invalidate` with its key. -/
inductive Event where
  | got (result : Except GoError harborClient) (constructed : Bool)
  | invalidated (key : String)

/-- Whether an event is an `invalidate` of the key `"config"`. -/
def Event.clears : Event → Bool
  | .invalidated key => key == "config"
  | .got _ _ => false

/-- One call, with the event it leaves.  A `getClient` constructed its result
when it succeeded and `NewRESTClientForHost` was called during it. -/
def perform (reg : Registry) (op : Op) (w : World) : Event × World :=
  match op with
  | .get s =>
    let r := getClient s reg w
    (.got r.1 (r.1.toBool && decide (w.dials < r.2.dials)), r.2)
  | .invalidate key => (.invalidated key, invalidate key w)

/-- A run: the calls in order, each on the world the previous one left. -/
def run (reg : Registry) : List Op → World → List Event × World
  | [], w => ([], w)
  | op :: ops, w =>
    let r := perform reg op w
    let rest := run reg ops r.2
    (r.1 :: rest.1, rest.2)

/-- The events after the most recent `invalidate("config")` (all of them when
there was none). -/
def sinceInvalidate : List Event → List Event
  | [] => []
  | e :: es =>
    if es.any Event.clears then sinceInvalidate es
    else if e.clears then es
    else e :: es

/-- The client an event constructed, if it is a successful constructing `getClient`. -/
def Event.constructed : Event → Option harborClient
  | .got (.ok c) true => some c
  | _ => none

/-- The client of the first successful construction among some events. -/
def firstConstructed (es : List Event) : Option harborClient :=
  es.findSome? Event.constructed

/-! ## Closed forms and inverses used in the statements -/

/-- The number written by a string of decimal digits. -/
def decValue (cs : List Char) : Nat :=
  cs.foldl (fun a c => 10 * a + (c.toNat - 48)) 0

/-- The integer written by an optional minus sign and decimal digits. -/
def parseD (s : String) : Int :=
  match s.data with
  | '-' :: cs => -(decValue cs : Int)
  | cs => (decValue cs : Int)

/-- The part of a string after its last dot. -/
def afterLastDot (s : String) : String :=
  ⟨(s.data.reverse.takeWhile fun c => c != '.').reverse⟩

/-- The request body `createRobotAccount` sends for a name and a role. -/
def robotCreateOf (robotName : String) (roleEntry : harborRoleEntry) : RobotCreate :=
  { Name := robotName
    Description := "This robot account is created by Vault, please DO NOT edit!"
    Disable := false
    Duration := maxTTLByDay roleEntry
    Level := "system"
    Permissions := roleEntry.Permissions }

/-- The response of a successful `createCreds` in closed form: the returned
data, the internal data with the `secret_type` entry the framework adds, and
lease options that are the role value when positive and zero otherwise. -/
def issuedResponse (roleName name : String) (role : harborRoleEntry)
    (created : RobotCreated) : Response :=
  { Data := [("robot_account_id", .int created.ID),
             ("robot_account_name", .str created.Name),
             ("robot_account_secret", .str created.Secret),
             ("robot_account_auth_token",
               .str ⟨encodeToString (bytes (created.Name ++ ":" ++ created.Secret))⟩)]
    Secret := { TTL := if role.TTL > 0 then role.TTL else 0
                MaxTTL := if role.MaxTTL > 0 then role.MaxTTL else 0
                InternalData := [("role", .str roleName), ("robot_account_name", .str name),
                                 ("secret_type", .str "robot_account")] } }

/-! ## `getClient` under interleaving

Callers of `getClient` take steps in any order; the steps are the lock
operations and the two sections they protect.  `RLock` waits while the lock is
held exclusively, `Lock` waits while it is held at all. -/

/-- Where a caller of `getClient` stands: before `RLock` (`start`), holding the
shared lock before the test of `b.client` (`reading`), holding it after the test
found a client (`found`) or found none (`missed`), between `RUnlock` and `Lock`
(`waiting`), holding the exclusive lock before line 104 (`writing`), holding it
with the return values fixed (`built`), or returned (`done`). -/
inductive Pc where
  | start
  | reading
  | found (c : harborClient)
  | missed
  | waiting
  | writing
  | built (r : Except GoError harborClient)
  | done (r : Except GoError harborClient)

/-- The backend with several callers inside `getClient`: the world, the state
of `b.lock` (how many hold it shared, whether one holds it exclusively), and
where each caller stands. -/
structure Conf where
  world : World
  readers : Nat
  writer : Bool
  pcs : List Pc

/-- One step of caller `i`; a caller that cannot move (blocked on the lock, or
returned, or absent) leaves the configuration as it is. -/
def step (s : Storage) (reg : Registry) (i : Nat) (cf : Conf) : Conf :=
  match cf.pcs[i]? with
  | none => cf
  -- b.lock.RLock()
  | some .start =>
    if cf.writer then cf
    else { cf with readers := cf.readers + 1, pcs := cf.pcs.set i .reading }
  -- if b.client != nil { return b.client, nil }
  | some .reading =>
    match cf.world.client with
    | some c => { cf with pcs := cf.pcs.set i (.found c) }
    | none => { cf with pcs := cf.pcs.set i .missed }
  -- the deferred unlockFunc, still b.lock.RUnlock
  | some (.found c) =>
    { cf with readers := cf.readers - 1, pcs := cf.pcs.set i (.done (.ok c)) }
  -- b.lock.RUnlock()
  | some .missed =>
    { cf with readers := cf.readers - 1, pcs := cf.pcs.set i .waiting }
  -- b.lock.Lock(); unlockFunc = b.lock.Unlock
  | some .waiting =>
    if cf.writer || cf.readers != 0 then cf
    else { cf with writer := true, pcs := cf.pcs.set i .writing }
  -- lines 104-118, from getConfig to the return statement
  | some .writing =>
    { cf with world := (getClientSlow s reg cf.world).2,
              pcs := cf.pcs.set i (.built (getClientSlow s reg cf.world).1) }
  -- the deferred unlockFunc, now b.lock.Unlock
  | some (.built r) =>
    { cf with writer := false, pcs := cf.pcs.set i (.done r) }
  | some (.done _) => cf

/-- The steps of a schedule, in order. -/
def exec (s : Storage) (reg : Registry) (sched : List Nat) (cf : Conf) : Conf :=
  sched.foldl (fun cf i => step s reg i cf) cf

/-- `n` callers about to enter `getClient` on a freshly started backend. -/
def Conf.init (n : Nat) : Conf :=
  { world := World.start, readers := 0, writer := false, pcs := List.replicate n .start }

/-- The schedule in which the callers `0, ..., n - 1` run one after the other,
each to its return. -/
def oneAtATime (n : Nat) : List Nat :=
  (List.range n).flatMap fun i => List.replicate 6 i

/-- The storage holds a complete config that `NewRESTClientForHost` accepts. -/
def Ready (s : Storage) (reg : Registry) (cfg : harborConfig) : Prop :=
  s.getConfig = .ok (some cfg) ∧ cfg.Username ≠ "" ∧ cfg.Password ≠ "" ∧ cfg.URL ≠ "" ∧
    reg.newRESTClientForHost (cfg.URL ++ "/api/v2.0") cfg.Username cfg.Password = none

/-- The client `newClient` builds from a config as the `k`-th construction. -/
def clientOf (cfg : harborConfig) (k : Nat) : harborClient :=
  { serial := k, host := cfg.URL ++ "/api/v2.0", username := cfg.Username,
    password := cfg.Password }

/-- Whether a caller has left the exclusive section of `getClient` or returned. -/
def Pc.past : Pc → Bool
  | .built _ => true
  | .done _ => true
  | _ => false

/-- Every client held by a caller was built by one of the first `d`
constructions, and a caller past the exclusive section holds a client. -/
def Pc.within (d : Nat) : Pc → Prop
  | .found c => c.serial < d
  | .built r => ∃ c, r = .ok c ∧ c.serial < d
  | .done r => ∃ c, r = .ok c ∧ c.serial < d
  | _ => True

/-- Every client in the cache or held by a caller was built by a construction
already counted, and every caller past the exclusive section holds a client. -/
def Sound (cf : Conf) : Prop :=
  (∀ c, cf.world.client = some c → c.serial < cf.world.dials) ∧
    ∀ pc ∈ cf.pcs, pc.within cf.world.dials

/-- The world after the first construction from a ready config. -/
def builtWorld (cfg : harborConfig) : World :=
  { client := some (clientOf cfg 0), dials := 1, loads := 1, calls := [] }

/-! ## Sample data -/

/-- The complete config held by `sampleStorage`. -/
def sampleConfig : harborConfig :=
  { URL := "https://harbor.test", Username := "admin", Password := "pw" }

/-- A client, as a configured backend would have cached it. -/
def sampleClient : harborClient :=
  { serial := 0, host := "https://harbor.test/api/v2.0", username := "admin", password := "pw" }

/-- A world in which `sampleClient` is cached and nothing has been sent yet. -/
def sampleWorld : World := { client := some sampleClient, dials := 1, loads := 1, calls := [] }

/-- A storage holding a complete config and the given role under the name `r1`. -/
def sampleStorage (role : harborRoleEntry) : Storage :=
  { getConfig := .ok (some sampleConfig)
    getRole := fun name => if name = "r1" then .ok (some role) else .ok none }

/-- A storage from which every role has been deleted. -/
def noRoleStorage : Storage :=
  { getConfig := .ok (some sampleConfig)
    getRole := fun _ => .ok none }

/-- A registry that answers like Harbor: the created account is returned under
the name `robot$` followed by the requested name. -/
def sampleRegistry : Registry :=
  { newRESTClientForHost := fun _ _ _ => none
    newRobotAccount := fun calls body =>
      .ok { ID := calls.length + 1, Name := "robot$" ++ body.Name, Secret := "s3cret" }
    deleteRobotAccountByName := fun _ _ => none }

/-- A request without display name, carrying an empty secret. -/
def sampleRequest : Request :=
  { DisplayName := "", Secret := { TTL := 0, MaxTTL := 0, InternalData := [] } }

/-- The role of the acceptance test: `ttl = 30`, `max_ttl = 60` seconds. -/
def sampleRole : harborRoleEntry :=
  { TTL := 30 * 1000000000, MaxTTL := 60 * 1000000000, Permissions := [] }

/-- A role that leaves both durations to the platform. -/
def bareRole : harborRoleEntry := { TTL := 0, MaxTTL := 0, Permissions := [] }

/-- A renew request for a lease of role `r1` that carries the given TTL and MaxTTL. -/
def leaseRequest (ttl maxTTL : Int) : Request :=
  { DisplayName := ""
    Secret := { TTL := ttl, MaxTTL := maxTTL,
                InternalData := [("role", .str "r1"), ("robot_account_name", .str "vault.r1.17")] } }

/-- The client built by the `k`-th `NewRESTClientForHost` call from the sample config. -/
def builtClient (k : Nat) : harborClient :=
  { serial := k, host := "https://harbor.test/api/v2.0", username := "admin", password := "pw" }

/-- Two callers that both test the cache before either takes the exclusive lock. -/
def overlapping : List Nat := [0, 0, 0, 1, 1, 1, 0, 0, 0, 1, 1, 1]

/-- A storage in which no config has ever been written. -/
def unconfiguredStorage : Storage :=
  { getConfig := .ok none, getRole := fun _ => .ok none }

/-- A renew request whose lease carries a number under `role`. -/
def mistypedRequest : Request :=
  { DisplayName := ""
    Secret := { TTL := 30000000000, MaxTTL := 60000000000,
                InternalData := [("role", .int 42), ("robot_account_name", .str "vault.r1.17")] } }

/-! ## Decimal formatting and the shape of a name -/

theorem digitChar_spec (k : Nat) (hk : k < 10) :
    (Nat.digitChar k).isDigit = true ∧ (Nat.digitChar k).toNat - 48 = k := by
  interval_cases k <;> decide

theorem decValue_snoc (ds : List Char) (c : Char) :
    decValue (ds ++ [c]) = 10 * decValue ds + (c.toNat - 48) := by
  simp [decValue, List.foldl_append]

theorem toDigitsCore_spec : ∀ (fuel n : Nat) (acc : List Char), n < fuel →
    ∃ ds, Nat.toDigitsCore 10 fuel n acc = ds ++ acc ∧ ds ≠ [] ∧ decValue ds = n ∧
      ∀ c ∈ ds, c.isDigit = true := by
  intro fuel
  induction fuel with
  | zero => intro n acc h; omega
  | succ fuel ih =>
    intro n acc h
    have hd := digitChar_spec (n % 10) (Nat.mod_lt _ (by norm_num))
    by_cases h0 : n / 10 = 0
    · refine ⟨[Nat.digitChar (n % 10)], ?_, by simp, ?_, ?_⟩
      · simp [Nat.toDigitsCore, h0]
      · simp [decValue, hd.2]; omega
      · simpa using hd.1
    · obtain ⟨ds, h1, _, h3, h4⟩ := ih (n / 10) (Nat.digitChar (n % 10) :: acc) (by omega)
      refine ⟨ds ++ [Nat.digitChar (n % 10)], ?_, by simp, ?_, ?_⟩
      · simp [Nat.toDigitsCore, h0, h1]
      · rw [decValue_snoc, h3, hd.2]; omega
      · intro c hc
        rcases List.mem_append.1 hc with hc | hc
        · exact h4 c hc
        · simpa [List.mem_singleton.1 hc] using hd.1

theorem repr_spec (n : Nat) :
    (Nat.repr n).data ≠ [] ∧ decValue (Nat.repr n).data = n ∧
      ∀ c ∈ (Nat.repr n).data, c.isDigit = true := by
  obtain ⟨ds, h1, h2, h3, h4⟩ := toDigitsCore_spec (n + 1) n [] (by omega)
  have : (Nat.repr n).data = ds := by
    simp [Nat.repr, Nat.toDigits, h1, List.asString]
  rw [this]
  exact ⟨h2, h3, h4⟩

theorem fmtD_nonneg (n : Nat) : (fmtD (n : Int)).data = (Nat.repr n).data := rfl

theorem fmtD_neg (n : Nat) :
    (fmtD (Int.negSucc n)).data = '-' :: (Nat.repr (n + 1)).data := rfl

theorem fmtD_chars (t : Int) : ∀ c ∈ (fmtD t).data, c ≠ '.' := by
  intro c hc hdot
  subst hdot
  cases t with
  | ofNat n =>
    have := (repr_spec n).2.2 _ (by simpa [fmtD_nonneg] using hc)
    exact absurd this (by decide)
  | negSucc n =>
    rw [fmtD_neg] at hc
    rcases List.mem_cons.1 hc with h | h
    · exact absurd h (by decide)
    · exact absurd ((repr_spec (n+1)).2.2 _ h) (by decide)

theorem parseD_fmtD (t : Int) : parseD (fmtD t) = t := by
  cases t with
  | ofNat n =>
    obtain ⟨h1, h2, h3⟩ := repr_spec n
    have hd : (fmtD (Int.ofNat n)).data = (Nat.repr n).data := rfl
    unfold parseD
    rw [hd]
    cases hr : (Nat.repr n).data with
    | nil => exact absurd hr h1
    | cons c cs =>
      have hc : c.isDigit = true := h3 c (by simp [hr])
      have hne : c ≠ '-' := by rintro rfl; exact absurd hc (by decide)
      rw [hr] at h2
      split
      · rename_i heq; simp at heq; exact absurd heq.1 hne
      · simp [h2]
  | negSucc n =>
    unfold parseD
    rw [fmtD_neg]
    simp [(repr_spec (n+1)).2.1]
    rw [Int.negSucc_eq]; ring


theorem takeWhile_append_stop {α : Type} (p : α → Bool) (l r : List α) (a : α)
    (hl : ∀ x ∈ l, p x = true) (ha : p a = false) :
    (l ++ a :: r).takeWhile p = l := by
  induction l with
  | nil => simp [List.takeWhile, ha]
  | cons x xs ih =>
    have hx : p x = true := hl x (by simp)
    simp [List.takeWhile, hx, ih (fun y hy => hl y (by simp [hy]))]

theorem afterLastDot_append (front : String) (t : Int) :
    afterLastDot (front ++ "." ++ fmtD t) = fmtD t := by
  unfold afterLastDot
  have h : (front ++ "." ++ fmtD t).data.reverse
      = (fmtD t).data.reverse ++ '.' :: front.data.reverse := by
    simp [String.data_append]
  rw [h, takeWhile_append_stop]
  · simp
  · intro x hx
    have := fmtD_chars t x (by simpa using hx)
    simpa using this
  · rfl

theorem robotAccountName_shape (roleName displayName : String) (now : Int) :
    ∃ front : String, robotAccountName roleName displayName now = front ++ "." ++ fmtD now := by
  unfold robotAccountName
  by_cases h : displayName = ""
  · exact ⟨"vault." ++ roleName, by simp [h]⟩
  · refine ⟨"vault." ++ roleName ++ "." ++ replaceAllString (fun c => !inClass c) displayName "-", ?_⟩
    simp [h, String.append_assoc]

theorem parseD_robotAccountName (roleName displayName : String) (now : Int) :
    parseD (afterLastDot (robotAccountName roleName displayName now)) = now := by
  obtain ⟨front, h⟩ := robotAccountName_shape roleName displayName now
  rw [h, afterLastDot_append, parseD_fmtD]

theorem replaceAllString_dash (d : String) :
    replaceAllString (fun c => !inClass c) d "-"
      = ⟨d.data.map fun c => if inClass c then c else '-'⟩ := by
  unfold replaceAllString
  congr 1
  induction d.data with
  | nil => rfl
  | cons c cs ih =>
    simp only [List.map_cons, List.flatten_cons, ih]
    by_cases hc : inClass c = true <;> simp [hc]

/-! ## The character class of the display-name pattern -/

theorem inClass_small : ∀ n : Fin 128,
    inClass (Char.ofNat n.val) = true ↔
      Char.ofNat n.val ∈
        "ABCDEFGHIJKLMNOPQRSTUVWXYZabcdefghijklmnopqrstuvwxyz0123456789._-".data := by
  decide

theorem listed_small : ∀ x ∈ "ABCDEFGHIJKLMNOPQRSTUVWXYZabcdefghijklmnopqrstuvwxyz0123456789._-".data,
    x.toNat < 128 := by
  decide

theorem inClass_large (c : Char) (h : 128 ≤ c.toNat) : inClass c = false := by
  have h9 : ¬ c ≤ '9' := by
    intro hc
    have : c.toNat ≤ '9'.toNat := hc
    have h57 : '9'.toNat = 57 := by decide
    omega
  have hZ : ¬ c ≤ 'Z' := by
    intro hc
    have : c.toNat ≤ 'Z'.toNat := hc
    have h90 : 'Z'.toNat = 90 := by decide
    omega
  have hz : ¬ c ≤ 'z' := by
    intro hc
    have : c.toNat ≤ 'z'.toNat := hc
    have h122 : 'z'.toNat = 122 := by decide
    omega
  have hne : ∀ x : Char, x.toNat < 128 → c ≠ x := by
    intro x hx hcx
    rw [hcx] at h
    omega
  have hdot : c ≠ '.' := hne _ (by decide)
  have hus : c ≠ '_' := hne _ (by decide)
  have hhy : c ≠ '-' := hne _ (by decide)
  simp [inClass, h9, hZ, hz, hdot, hus, hhy]

/-- The class of the pattern is the set `[A-Za-z0-9._-]`, character by character. -/
theorem inClass_iff (c : Char) :
    inClass c = true ↔
      c ∈ "ABCDEFGHIJKLMNOPQRSTUVWXYZabcdefghijklmnopqrstuvwxyz0123456789._-".data := by
  by_cases h : c.toNat < 128
  · have := inClass_small ⟨c.toNat, h⟩
    simpa [Char.ofNat_toNat] using this
  · constructor
    · intro hc
      rw [inClass_large c (by omega)] at hc
      cases hc
    · intro hm
      exact absurd (listed_small c hm) h

theorem replaceAllString_listed (d : String) :
    replaceAllString (fun c => !inClass c) d "-"
      = ⟨d.data.map fun c =>
          if c ∈ "ABCDEFGHIJKLMNOPQRSTUVWXYZabcdefghijklmnopqrstuvwxyz0123456789._-".data
          then c else '-'⟩ := by
  rw [replaceAllString_dash]
  congr 1
  apply List.map_congr_left
  intro c _
  by_cases hc : inClass c = true
  · rw [if_pos hc, if_pos ((inClass_iff c).1 hc)]
  · rw [if_neg hc, if_neg (fun hm => hc ((inClass_iff c).2 hm))]

/-! ## The effect of issuance on the record of calls -/

theorem getClientSlow_calls (s : Storage) (reg : Registry) (w : World) :
    (getClientSlow s reg w).2.calls = w.calls := by
  unfold getClientSlow
  cases s.getConfig with
  | error e => rfl
  | ok cfg =>
    simp only
    split <;> rfl

theorem getClient_calls (s : Storage) (reg : Registry) (w : World) :
    (getClient s reg w).2.calls = w.calls := by
  unfold getClient
  cases w.client with
  | none => exact getClientSlow_calls s reg w
  | some c => rfl

theorem createRobotAccount_of_error {s : Storage} {reg : Registry} {w w1 : World}
    {err : GoError} (name : String) (role : harborRoleEntry)
    (h : getClient s reg w = (.error err, w1)) :
    createRobotAccount s reg name role w = (.error err, w1) := by
  simp [createRobotAccount, h]

theorem createRobotAccount_of_client {s : Storage} {reg : Registry} {w w1 : World}
    {client : harborClient} (name : String) (role : harborRoleEntry)
    (h : getClient s reg w = (.ok client, w1)) :
    createRobotAccount s reg name role w =
      (match reg.newRobotAccount w.calls (robotCreateOf name role) with
        | .error err => .error (.wrap "error creating Harbor robot account: " err)
        | .ok created =>
          .ok { ID := created.ID, Name := created.Name, Secret := created.Secret,
                AuthToken := ⟨encodeToString (bytes (created.Name ++ ":" ++ created.Secret))⟩ },
       { w1 with calls := w.calls ++ [RemoteCall.newRobotAccount client (robotCreateOf name role)] }) := by
  have hc : w1.calls = w.calls := by
    have := getClient_calls s reg w
    rw [h] at this
    exact this
  simp only [createRobotAccount, h, hc, robotCreateOf]
  cases reg.newRobotAccount w.calls _ <;> rfl

theorem createCreds_world (s : Storage) (reg : Registry) (req : Request) (roleName : String)
    (role : harborRoleEntry) (now : Int) (w : World) :
    (createCreds s reg req roleName role now w).2 =
      (createRobotAccount s reg (robotAccountName roleName req.DisplayName now) role w).2 := by
  unfold createCreds
  simp only
  split <;> simp_all

/-! ## base64 -/

theorem b64Char_spec : ∀ n : Fin 64, b64Value (b64Char n.val) = some n.val ∧ b64Char n.val ≠ '=' := by
  decide

theorem b64Value_b64Char {n : Nat} (h : n < 64) : b64Value (b64Char n) = some n :=
  (b64Char_spec ⟨n, h⟩).1

theorem b64Char_ne_pad {n : Nat} (h : n < 64) : b64Char n ≠ '=' :=
  (b64Char_spec ⟨n, h⟩).2

theorem decode_encode : ∀ bs : List Nat, (∀ b ∈ bs, b < 256) →
    decodeString (encodeToString bs) = some bs := by
  intro bs
  induction bs using encodeToString.induct with
  | case1 => intro _; rfl
  | case2 a =>
    intro h
    have ha : a < 256 := h a (by simp)
    simp only [encodeToString, decodeString, if_true, ne_eq, not_true_eq_false, if_false]
    rw [b64Value_b64Char (by omega), b64Value_b64Char (by omega)]
    simp only [Option.bind]
    congr 2
    omega
  | case3 a b =>
    intro h
    have ha : a < 256 := h a (by simp)
    have hb : b < 256 := h b (by simp)
    have h2 : b64Char (b % 16 * 4) ≠ '=' := b64Char_ne_pad (by omega)
    simp only [encodeToString, decodeString, if_true, ne_eq, not_true_eq_false, if_false, h2]
    rw [b64Value_b64Char (by omega), b64Value_b64Char (by omega), b64Value_b64Char (by omega)]
    simp only [Option.bind]
    congr 2
    · omega
    · congr 1; omega
  | case4 a b c rest ih =>
    intro h
    have ha : a < 256 := h a (by simp)
    have hb : b < 256 := h b (by simp)
    have hc : c < 256 := h c (by simp)
    have h3 : b64Char (c % 64) ≠ '=' := b64Char_ne_pad (by omega)
    have hrest := ih (fun x hx => h x (by simp [hx]))
    simp only [encodeToString, decodeString, if_false, h3]
    rw [b64Value_b64Char (by omega), b64Value_b64Char (by omega), b64Value_b64Char (by omega),
      b64Value_b64Char (by omega), hrest]
    simp only [Option.bind]
    congr 2
    · omega
    · congr 1
      · omega
      · congr 1; omega

theorem utf8Char_lt (c : Char) : ∀ b ∈ utf8Char c, b < 256 := by
  have hv : c.toNat < 0x110000 := by
    rcases c.valid with h | h
    · exact Nat.lt_trans h (by decide)
    · exact h.2
  intro b hb
  unfold utf8Char at hb
  simp only at hb
  split_ifs at hb <;> simp at hb <;> omega

theorem bytes_lt (s : String) : ∀ b ∈ bytes s, b < 256 := by
  intro b hb
  unfold bytes at hb
  simp only [List.mem_flatten, List.mem_map] at hb
  obtain ⟨l, ⟨c, _, rfl⟩, hb⟩ := hb
  exact utf8Char_lt c b hb

theorem decode_encode_bytes (s : String) :
    decodeString (encodeToString (bytes s)) = some (bytes s) :=
  decode_encode _ (bytes_lt s)

/-! ## Rounding to float64 -/

theorem roundHalfEven_bounds (q : ℚ) : ⌊q⌋ ≤ roundHalfEven q ∧ roundHalfEven q ≤ ⌈q⌉ := by
  have hfl : (⌊q⌋ : ℚ) ≤ q := Int.floor_le q
  have hstep : ∀ {f : ℤ}, f = ⌊q⌋ → ¬ (q - (f : ℚ) < 1 / 2) → f + 1 ≤ ⌈q⌉ := by
    intro f hf h
    have : (f : ℚ) < q := by
      have := not_lt.1 h
      linarith
    exact Int.add_one_le_iff.2 (Int.lt_ceil.2 this)
  unfold roundHalfEven
  simp only
  split_ifs with h1 h2 h3
  · exact ⟨le_refl _, Int.floor_le_ceil q⟩
  · exact ⟨by omega, hstep rfl h1⟩
  · exact ⟨le_refl _, Int.floor_le_ceil q⟩
  · exact ⟨by omega, hstep rfl h1⟩

theorem roundHalfEven_le {q : ℚ} {B : ℤ} (h : q ≤ B) : roundHalfEven q ≤ B :=
  le_trans (roundHalfEven_bounds q).2 (Int.ceil_le.2 h)

theorem le_roundHalfEven {q : ℚ} {A : ℤ} (h : (A : ℚ) ≤ q) : A ≤ roundHalfEven q :=
  le_trans (Int.le_floor.2 h) (roundHalfEven_bounds q).1

theorem toFloat64_zero : toFloat64 0 = 0 := by simp [toFloat64]

/-- For positive `q` below `2 ^ (53 + k)`, the grid `2 ^ k` is a whole multiple
of the spacing used to round `q`. -/
theorem spacing_divides {q : ℚ} {k : ℤ} (hq : 0 < q) (hlt : q < 2 ^ (53 + k))
    (hk : -1074 ≤ k) :
    ∃ n : ℕ, (2 : ℚ) ^ k = (2 : ℚ) ^ n * 2 ^ (max (Int.log 2 |q|) (-1022) - 52) := by
  have hlog : Int.log 2 q < 53 + k := by
    apply (Int.lt_zpow_iff_log_lt (by norm_num) hq).1
    simpa using hlt
  rw [abs_of_pos hq]
  have hj : max (Int.log 2 q) (-1022) - 52 ≤ k := by
    have := max_le (a := Int.log 2 q) (b := -1022) (c := k + 52) (by omega) (by omega)
    omega
  refine ⟨(k - (max (Int.log 2 q) (-1022) - 52)).toNat, ?_⟩
  rw [← zpow_natCast, ← zpow_add₀ (by norm_num : (2 : ℚ) ≠ 0)]
  congr 1
  rw [Int.toNat_of_nonneg (by omega)]
  ring

theorem toFloat64_le {q : ℚ} {m k : ℤ} (hq : 0 ≤ q) (hb : q ≤ m * 2 ^ k)
    (hm : m < 2 ^ 53) (hk : -1074 ≤ k) : toFloat64 q ≤ m * 2 ^ k := by
  rcases eq_or_lt_of_le hq with h0 | hpos
  · rw [← h0, toFloat64_zero]; rw [← h0] at hb; exact hb
  have h2k : (0 : ℚ) < 2 ^ k := zpow_pos (by norm_num) k
  have hlt : q < 2 ^ (53 + k) := by
    rw [zpow_add₀ (by norm_num : (2 : ℚ) ≠ 0)]
    have : (m : ℚ) < 2 ^ (53 : ℤ) := by exact_mod_cast hm
    calc q ≤ m * 2 ^ k := hb
      _ < 2 ^ (53 : ℤ) * 2 ^ k := by exact mul_lt_mul_of_pos_right this h2k
  obtain ⟨n, hn⟩ := spacing_divides hpos hlt hk
  unfold toFloat64
  rw [if_neg (ne_of_gt hpos)]
  simp only
  set u : ℚ := 2 ^ (max (Int.log 2 |q|) (-1022) - 52) with hu
  have hupos : 0 < u := zpow_pos (by norm_num) _
  have hB : q / u ≤ ((m * 2 ^ n : ℤ) : ℚ) := by
    rw [div_le_iff₀ hupos]
    push_cast
    calc q ≤ m * 2 ^ k := hb
      _ = m * 2 ^ n * u := by rw [hn]; ring
  have := roundHalfEven_le hB
  calc (roundHalfEven (q / u) : ℚ) * u ≤ ((m * 2 ^ n : ℤ) : ℚ) * u := by
        apply mul_le_mul_of_nonneg_right _ hupos.le
        exact_mod_cast this
    _ = m * 2 ^ k := by push_cast; rw [hn]; ring

theorem le_toFloat64 {q : ℚ} {m k : ℤ} (hq : 0 ≤ q) (ha : (m : ℚ) * 2 ^ k ≤ q)
    (hlt : q < 2 ^ (53 + k)) (hk : -1074 ≤ k) : (m : ℚ) * 2 ^ k ≤ toFloat64 q := by
  rcases eq_or_lt_of_le hq with h0 | hpos
  · rw [← h0, toFloat64_zero]; rw [← h0] at ha; exact ha
  obtain ⟨n, hn⟩ := spacing_divides hpos hlt hk
  unfold toFloat64
  rw [if_neg (ne_of_gt hpos)]
  simp only
  set u : ℚ := 2 ^ (max (Int.log 2 |q|) (-1022) - 52) with hu
  have hupos : 0 < u := zpow_pos (by norm_num) _
  have hA : ((m * 2 ^ n : ℤ) : ℚ) ≤ q / u := by
    rw [le_div_iff₀ hupos]
    push_cast
    calc (m : ℚ) * 2 ^ n * u = m * 2 ^ k := by rw [hn]; ring
      _ ≤ q := ha
  have := le_roundHalfEven hA
  calc (m : ℚ) * 2 ^ k = ((m * 2 ^ n : ℤ) : ℚ) * u := by push_cast; rw [hn]; ring
    _ ≤ (roundHalfEven (q / u) : ℚ) * u := by
        apply mul_le_mul_of_nonneg_right _ hupos.le
        exact_mod_cast this

/-- A non-negative integer multiple `m * 2 ^ k` with `m < 2 ^ 53` is a float64:
rounding leaves it alone. -/
theorem toFloat64_exact {m k : ℤ} (h0 : 0 ≤ m) (hm : m < 2 ^ 53) (hk : -1074 ≤ k) :
    toFloat64 (m * 2 ^ k) = m * 2 ^ k := by
  have h2k : (0 : ℚ) < 2 ^ k := zpow_pos (by norm_num) k
  have hnn : (0 : ℚ) ≤ m * 2 ^ k := mul_nonneg (by exact_mod_cast h0) h2k.le
  apply le_antisymm (toFloat64_le hnn le_rfl hm hk)
  apply le_toFloat64 hnn le_rfl _ hk
  rw [zpow_add₀ (by norm_num : (2 : ℚ) ≠ 0)]
  have : (m : ℚ) < 2 ^ (53 : ℤ) := by exact_mod_cast hm
  exact mul_lt_mul_of_pos_right this h2k

theorem toFloat64_int {n : ℤ} (h0 : 0 ≤ n) (hn : n < 2 ^ 53) : toFloat64 n = n := by
  simpa using toFloat64_exact (k := 0) h0 hn (by norm_num)

theorem hour_parts {d : Int} (h0 : 0 ≤ d) (h1 : d < 2 ^ 63) :
    d.tdiv Hour = d / Hour ∧ d.tmod Hour = d % Hour ∧ 0 ≤ d / Hour ∧ d / Hour < 2562048 ∧
      0 ≤ d % Hour ∧ d % Hour < 3600000000000 := by
  have hH : Hour = 3600000000000 := by norm_num [Hour]
  rw [hH]
  refine ⟨Int.tdiv_eq_ediv h0 (by norm_num), Int.tmod_eq_emod h0 (by norm_num), ?_, ?_, ?_, ?_⟩ <;>
    omega

/-- The fraction term of `Hours`, `float64(nsec) / (60*60*1e9)`, for a remainder
`nsec` of a division by `Hour`: between 0 and 1, and no more than a float64
bound `m / 4096` that the exact quotient respects. -/
theorem fraction_bounds {n : Int} (h0 : 0 ≤ n) (h1 : n < 3600000000000) :
    0 ≤ toFloat64 (toFloat64 n / toFloat64 (60 * 60 * 1000000000)) ∧
    ∀ m : ℤ, 0 ≤ m → m ≤ 4096 → (n : ℚ) / 3600000000000 ≤ m / 4096 →
      toFloat64 (toFloat64 n / toFloat64 (60 * 60 * 1000000000)) ≤ m / 4096 := by
  have hn : toFloat64 (n : ℚ) = n := toFloat64_int h0 (by omega)
  have hc : toFloat64 (60 * 60 * 1000000000) = 3600000000000 := by
    have := toFloat64_int (n := 3600000000000) (by norm_num) (by norm_num)
    norm_num at this ⊢
    exact this
  rw [hn, hc]
  have hq0 : (0 : ℚ) ≤ (n : ℚ) / 3600000000000 := by
    apply div_nonneg _ (by norm_num)
    exact_mod_cast h0
  have hq1 : (n : ℚ) / 3600000000000 < 1 := by
    rw [div_lt_one (by norm_num)]
    exact_mod_cast h1
  constructor
  · have := le_toFloat64 (m := 0) (k := 0) hq0 (by simpa using hq0)
      (by norm_num; linarith) (by norm_num)
    simpa using this
  · intro m hm0 hm1 hle
    have := toFloat64_le (m := m) (k := -12) hq0 (by norm_num [zpow_neg]; linarith [hle, show (m:ℚ)/4096 = m * (1/4096) by ring])
      (by omega) (by norm_num)
    norm_num [zpow_neg] at this
    linarith [this, show (m:ℚ)/4096 = m * (1/4096) by ring]

theorem hours_bounds {d : Int} (h0 : 0 ≤ d) (h1 : d < 2 ^ 63) :
    ((d / Hour : ℤ) : ℚ) ≤ Duration.Hours d ∧
    ∀ m : ℤ, 0 ≤ m → m ≤ 4096 → ((d % Hour : ℤ) : ℚ) / 3600000000000 ≤ m / 4096 →
      Duration.Hours d ≤ ((d / Hour : ℤ) : ℚ) + m / 4096 := by
  obtain ⟨e1, e2, a1, a2, a3, a4⟩ := hour_parts h0 h1
  obtain ⟨f0, fm⟩ := fraction_bounds a3 a4
  have f1 := fm 4096 (by norm_num) (by norm_num) (by
    rw [div_le_iff₀ (by norm_num)]
    have : ((d % Hour : ℤ) : ℚ) ≤ 3600000000000 := by exact_mod_cast a4.le
    norm_num
    exact this)
  norm_num at f1
  unfold Duration.Hours
  simp only [e1, e2]
  rw [toFloat64_int a1 (by omega)]
  set F := toFloat64 (toFloat64 ((d % Hour : ℤ) : ℚ) / toFloat64 (60 * 60 * 1000000000)) with hF
  have hh0 : (0 : ℚ) ≤ ((d / Hour : ℤ) : ℚ) := by exact_mod_cast a1
  have hh1 : ((d / Hour : ℤ) : ℚ) < 2562048 := by exact_mod_cast a2
  constructor
  · have := le_toFloat64 (q := ((d / Hour : ℤ) : ℚ) + F) (m := d / Hour) (k := 0)
      (by linarith) (by simpa using f0) (by norm_num; linarith) (by norm_num)
    simpa using this
  · intro m hm0 hm1 hle
    have hFm := fm m hm0 hm1 hle
    have := toFloat64_le (q := ((d / Hour : ℤ) : ℚ) + F) (m := 4096 * (d / Hour) + m) (k := -12)
      (by linarith) (by push_cast; norm_num [zpow_neg]; linarith) (by omega) (by norm_num)
    push_cast at this
    norm_num [zpow_neg] at this
    linarith

theorem dayHours_eq : dayHours = 24 := by
  have := toFloat64_int (n := 24) (by norm_num) (by norm_num)
  unfold dayHours
  exact_mod_cast this

theorem maxTTLByDay_bounds (role : harborRoleEntry) (h0 : 0 ≤ role.MaxTTL)
    (h1 : role.MaxTTL < 2 ^ 63) :
    role.MaxTTL / Hour / 24 + 1 ≤ maxTTLByDay role ∧
    (((role.MaxTTL % Hour : ℤ) : ℚ) / 3600000000000 ≤ 4095 / 4096 →
      maxTTLByDay role = role.MaxTTL / Hour / 24 + 1) := by
  obtain ⟨_, _, a1, a2, _, _⟩ := hour_parts h0 h1
  obtain ⟨hlo, hup⟩ := hours_bounds h0 h1
  have hup1 := hup 4096 (by norm_num) (by norm_num) (by
    obtain ⟨_, _, _, _, a3, a4⟩ := hour_parts h0 h1
    rw [div_le_iff₀ (by norm_num)]
    have : ((role.MaxTTL % Hour : ℤ) : ℚ) ≤ 3600000000000 := by exact_mod_cast a4.le
    norm_num
    exact this)
  norm_num at hup1
  set h := role.MaxTTL / Hour with hh
  set k := h / 24 with hk
  have hk0 : 0 ≤ k := by omega
  have hk1 : k < 106752 := by omega
  have hkh : 24 * k ≤ h := by omega
  have hhk : h ≤ 24 * k + 23 := by omega
  have hkhq : (24 : ℚ) * k ≤ h := by exact_mod_cast hkh
  have hhkq : (h : ℚ) ≤ 24 * k + 23 := by exact_mod_cast hhk
  have hk0q : (0 : ℚ) ≤ k := by exact_mod_cast hk0
  have hk1q : (k : ℚ) < 106752 := by exact_mod_cast hk1
  have hH0 : 0 ≤ Duration.Hours role.MaxTTL := by
    have : (0 : ℚ) ≤ h := by exact_mod_cast a1
    linarith
  have hq0 : 0 ≤ Duration.Hours role.MaxTTL / 24 := div_nonneg hH0 (by norm_num)
  have hlow : (k : ℚ) ≤ toFloat64 (Duration.Hours role.MaxTTL / 24) := by
    have := le_toFloat64 (q := Duration.Hours role.MaxTTL / 24) (m := k) (k := 0) hq0
      (by rw [le_div_iff₀ (by norm_num)]; simp; linarith)
      (by rw [div_lt_iff₀ (by norm_num)]; norm_num; linarith) (by norm_num)
    simpa using this
  have hF0 : 0 ≤ toFloat64 (Duration.Hours role.MaxTTL / 24) := le_trans hk0q hlow
  unfold maxTTLByDay truncToInt
  rw [dayHours_eq, if_pos hF0]
  constructor
  · have := Int.le_floor.2 hlow
    omega
  · intro hfrac
    have hup2 := hup 4095 (by norm_num) (by norm_num) hfrac
    have hhi := toFloat64_le (q := Duration.Hours role.MaxTTL / 24)
      (m := 131072 * (k + 1) - 1) (k := -17) hq0
      (by rw [div_le_iff₀ (by norm_num)]; push_cast; norm_num [zpow_neg]; linarith)
      (by omega) (by norm_num)
    push_cast at hhi
    norm_num [zpow_neg] at hhi
    have hlt : toFloat64 (Duration.Hours role.MaxTTL / 24) < ((k + 1 : ℤ) : ℚ) := by
      push_cast; linarith
    have h1 := Int.le_floor.2 hlow
    have h2 := Int.floor_lt.2 hlt
    omega

theorem maxTTLByDay_seconds (role : harborRoleEntry) (s : Int) (hs : 0 ≤ s)
    (hrole : role.MaxTTL = s * 1000000000) (hfit : role.MaxTTL < 2 ^ 63) :
    maxTTLByDay role = s / 86400 + 1 := by
  have h0 : 0 ≤ role.MaxTTL := by omega
  obtain ⟨_, hex⟩ := maxTTLByDay_bounds role h0 hfit
  have hH : Hour = 3600000000000 := by norm_num [Hour]
  rw [hex]
  · rw [hH, hrole]; omega
  · rw [div_le_iff₀ (by norm_num)]
    have : (role.MaxTTL % Hour) * 4096 ≤ 4095 * 3600000000000 := by
      rw [hH, hrole]; omega
    have : (((role.MaxTTL % Hour) * 4096 : ℤ) : ℚ) ≤ ((4095 * 3600000000000 : ℤ) : ℚ) := by
      exact_mod_cast this
    push_cast at this
    linarith

/-! ## Issuance in closed form -/

theorem frameworkSecretResponse_issued (data : Fields) (roleName name : String) :
    frameworkSecretResponse harborRobotAccountType data
        [("role", .str roleName), ("robot_account_name", .str name)]
      = { Data := data
          Secret := { TTL := 0, MaxTTL := 0,
                      InternalData := [("role", .str roleName), ("robot_account_name", .str name),
                                       ("secret_type", .str "robot_account")] } } :=
  rfl

theorem createCreds_of_error {s : Storage} {reg : Registry} {w w1 : World} {err : GoError}
    (req : Request) (roleName : String) (role : harborRoleEntry) (now : Int)
    (h : getClient s reg w = (.error err, w1)) :
    createCreds s reg req roleName role now w = (.error err, w1) := by
  simp [createCreds, createRobotAccount_of_error _ _ h]

theorem createCreds_of_client {s : Storage} {reg : Registry} {w w1 : World}
    {client : harborClient} (req : Request) (roleName : String) (role : harborRoleEntry)
    (now : Int) (h : getClient s reg w = (.ok client, w1)) :
    createCreds s reg req roleName role now w =
      (match reg.newRobotAccount w.calls
          (robotCreateOf (robotAccountName roleName req.DisplayName now) role) with
        | .error err => .error (.wrap "error creating Harbor robot account: " err)
        | .ok created =>
          .ok (issuedResponse roleName (robotAccountName roleName req.DisplayName now) role created),
       { w1 with calls := w.calls ++ [RemoteCall.newRobotAccount client
          (robotCreateOf (robotAccountName roleName req.DisplayName now) role)] }) := by
  unfold createCreds
  simp only [createRobotAccount_of_client _ _ h]
  cases reg.newRobotAccount w.calls _ with
  | error err => rfl
  | ok created =>
    simp only [issuedResponse, frameworkSecretResponse_issued]
    by_cases h1 : role.TTL > 0 <;> by_cases h2 : role.MaxTTL > 0 <;> simp [h1, h2]

/-- What a successful `createCreds` did: it had a client, sent one request for
the computed name, got an answer, and returned the closed-form response. -/
theorem createCreds_ok {s : Storage} {reg : Registry} {req : Request} {roleName : String}
    {role : harborRoleEntry} {now : Int} {w w2 : World} {resp : Response}
    (h : createCreds s reg req roleName role now w = (.ok resp, w2)) :
    ∃ client w1 created,
      getClient s reg w = (.ok client, w1) ∧
      reg.newRobotAccount w.calls
        (robotCreateOf (robotAccountName roleName req.DisplayName now) role) = .ok created ∧
      resp = issuedResponse roleName (robotAccountName roleName req.DisplayName now) role created ∧
      w2.calls = w.calls ++ [RemoteCall.newRobotAccount client
        (robotCreateOf (robotAccountName roleName req.DisplayName now) role)] := by
  rcases hg : getClient s reg w with ⟨r, w1⟩
  cases r with
  | error err =>
    rw [createCreds_of_error _ _ _ _ hg] at h
    simp at h
  | ok client =>
    rw [createCreds_of_client _ _ _ _ hg] at h
    cases hr : reg.newRobotAccount w.calls
        (robotCreateOf (robotAccountName roleName req.DisplayName now) role) with
    | error err => rw [hr] at h; simp at h
    | ok created =>
      rw [hr] at h
      simp only [Prod.mk.injEq, Except.ok.injEq] at h
      exact ⟨client, w1, created, rfl, rfl, h.1.symm, by rw [← h.2]⟩

/-! ## The sample issuance, evaluated -/

theorem sample_getClient (role : harborRoleEntry) :
    getClient (sampleStorage role) sampleRegistry sampleWorld = (.ok sampleClient, sampleWorld) :=
  rfl

theorem sample_name : robotAccountName "r1" "" 17 = "vault.r1.17" := by decide

theorem sample_createCreds (role : harborRoleEntry) :
    createCreds (sampleStorage role) sampleRegistry sampleRequest "r1" role 17 sampleWorld =
      (.ok (issuedResponse "r1" "vault.r1.17" role
          { ID := 1, Name := "robot$vault.r1.17", Secret := "s3cret" }),
       { sampleWorld with calls :=
          [RemoteCall.newRobotAccount sampleClient (robotCreateOf "vault.r1.17" role)] }) := by
  rw [createCreds_of_client _ _ _ _ (sample_getClient role)]
  have hn : robotAccountName "r1" sampleRequest.DisplayName 17 = "vault.r1.17" := sample_name
  rw [hn]
  rfl

/-! ## The lease callbacks in closed form -/

theorem robotAccountRevoke_of_name {s : Storage} {reg : Registry} {req : Request}
    {w w1 : World} {client : harborClient} {account : String}
    (hg : getClient s reg w = (.ok client, w1))
    (hn : req.Secret.InternalData.lookup "robot_account_name" = some (.str account)) :
    robotAccountRevoke s reg req w =
      (match reg.deleteRobotAccountByName w.calls account with
        | some err => .error (.wrap "error revoking robot account: " err)
        | none => .ok none,
       { w1 with calls := w.calls ++ [RemoteCall.deleteRobotAccountByName client account] }) := by
  have hc : w1.calls = w.calls := by
    have := getClient_calls s reg w
    rw [hg] at this
    exact this
  simp only [robotAccountRevoke, hg, hn, deleteRobotAccount, hc]
  cases reg.deleteRobotAccountByName w.calls account <;> rfl

theorem robotAccountRenew_of_role {s : Storage} {req : Request} {name : String}
    {role : harborRoleEntry}
    (hn : req.Secret.InternalData.lookup "role" = some (.str name))
    (hr : s.getRole name = .ok (some role)) :
    robotAccountRenew s req =
      (.ok { Data := [],
             Secret := { TTL := if role.TTL > 0 then role.TTL else req.Secret.TTL
                         MaxTTL := if role.MaxTTL > 0 then role.MaxTTL else req.Secret.MaxTTL
                         InternalData := req.Secret.InternalData } },
       { TTL := if role.TTL > 0 then role.TTL else req.Secret.TTL
         MaxTTL := if role.MaxTTL > 0 then role.MaxTTL else req.Secret.MaxTTL
         InternalData := req.Secret.InternalData }) := by
  simp only [robotAccountRenew, hn, hr]
  by_cases h1 : role.TTL > 0 <;> by_cases h2 : role.MaxTTL > 0 <;> simp [h1, h2]

theorem robotAccountRenew_ok {s : Storage} {req : Request} {resp : Response} {left : Secret}
    (h : robotAccountRenew s req = (.ok resp, left)) :
    ∃ name role, req.Secret.InternalData.lookup "role" = some (.str name) ∧
      s.getRole name = .ok (some role) := by
  unfold robotAccountRenew at h
  split at h
  · simp at h
  · rename_i name hn
    split at h
    · simp at h
    · simp at h
    · rename_i role hr
      exact ⟨name, role, hn, hr⟩
  · simp at h

theorem robotAccountName_time_inj {r1 d1 r2 d2 : String} {t1 t2 : Int}
    (h : robotAccountName r1 d1 t1 = robotAccountName r2 d2 t2) : t1 = t2 := by
  have h1 := parseD_robotAccountName r1 d1 t1
  have h2 := parseD_robotAccountName r2 d2 t2
  rw [h] at h1
  exact h1.symm.trans h2

/-! ## The client cache, one call at a time -/

theorem newClient_ok {reg : Registry} {serial : Nat} {cfg : harborConfig} {c : harborClient}
    {dialled : Bool} (h : newClient reg serial (some cfg) = (.ok c, dialled)) :
    cfg.Username ≠ "" ∧ cfg.Password ≠ "" ∧ cfg.URL ≠ "" ∧
    reg.newRESTClientForHost (cfg.URL ++ "/api/v2.0") cfg.Username cfg.Password = none ∧
    c = { serial := serial, host := cfg.URL ++ "/api/v2.0", username := cfg.Username,
          password := cfg.Password } ∧ dialled = true := by
  unfold newClient at h
  simp only at h
  split_ifs at h with h1 h2 h3
  · simp at h
  · simp at h
  · simp at h
  · split at h
    · simp at h
    · rename_i hd
      simp only [Prod.mk.injEq, Except.ok.injEq] at h
      exact ⟨h1, h2, h3, hd, h.1.symm, h.2.symm⟩

theorem getClientSlow_ok {s : Storage} {reg : Registry} {w w2 : World} {c : harborClient}
    (h : getClientSlow s reg w = (.ok c, w2)) :
    ∃ cfg, s.getConfig = .ok (some cfg) ∧
      cfg.Username ≠ "" ∧ cfg.Password ≠ "" ∧ cfg.URL ≠ "" ∧
      c = { serial := w.dials, host := cfg.URL ++ "/api/v2.0", username := cfg.Username,
            password := cfg.Password } ∧
      w2 = { client := some c, dials := w.dials + 1, loads := w.loads + 1, calls := w.calls } := by
  unfold getClientSlow at h
  simp only at h
  split at h
  · simp at h
  · rename_i config hcfg
    split at h
    · rename_i c1 dialled hnc
      simp only [Prod.mk.injEq, Except.ok.injEq] at h
      obtain ⟨hc, hw⟩ := h
      subst hc
      cases config with
      | none =>
        have := (newClient_ok hnc).1
        simp at this
      | some cfg =>
        obtain ⟨h1, h2, h3, _, h5, h6⟩ := newClient_ok hnc
        refine ⟨cfg, hcfg, h1, h2, h3, h5, ?_⟩
        rw [← hw, h6]
        rfl
    · simp at h

theorem getClientSlow_error {s : Storage} {reg : Registry} {w w2 : World} {err : GoError}
    (h : getClientSlow s reg w = (.error err, w2)) :
    (w2.client = none ∨ w2.client = w.client) ∧ w.dials ≤ w2.dials := by
  unfold getClientSlow at h
  simp only at h
  split at h
  · simp only [Prod.mk.injEq] at h
    rw [← h.2]
    exact ⟨Or.inr rfl, le_refl _⟩
  · split at h
    · simp at h
    · simp only [Prod.mk.injEq] at h
      rw [← h.2]
      exact ⟨Or.inl rfl, Nat.le_add_right _ _⟩

theorem getClient_cached {s : Storage} {reg : Registry} {w : World} {c : harborClient}
    (h : w.client = some c) : getClient s reg w = (.ok c, w) := by
  simp [getClient, h]

theorem getClient_empty {s : Storage} {reg : Registry} {w : World} (h : w.client = none) :
    getClient s reg w = getClientSlow s reg w := by
  simp [getClient, h]

/-- After any `getClient`, the cache holds the returned client on success and
nothing on failure. -/
theorem getClient_client (s : Storage) (reg : Registry) (w : World) :
    (getClient s reg w).2.client = (getClient s reg w).1.toOption := by
  cases hc : w.client with
  | some c => rw [getClient_cached hc]; simp [hc, Except.toOption]
  | none =>
    rw [getClient_empty hc]
    rcases hs : getClientSlow s reg w with ⟨r, w2⟩
    cases r with
    | error err =>
      rcases (getClientSlow_error hs).1 with h | h
      · simpa [Except.toOption] using h
      · simp [Except.toOption, h, hc]
    | ok c =>
      obtain ⟨_, _, _, _, _, _, hw⟩ := getClientSlow_ok hs
      simp [Except.toOption, hw]

theorem run_append (reg : Registry) (ops : List Op) (op : Op) (w : World) :
    run reg (ops ++ [op]) w =
      ((run reg ops w).1 ++ [(perform reg op (run reg ops w).2).1],
       (perform reg op (run reg ops w).2).2) := by
  induction ops generalizing w with
  | nil => simp [run]
  | cons o os ih => simp [run, ih]

theorem run_take (reg : Registry) (ops : List Op) (n : Nat) (w : World) :
    (run reg ops w).1.take n = (run reg (ops.take n) w).1 := by
  induction ops generalizing w n with
  | nil => simp [run]
  | cons o os ih =>
    cases n with
    | zero => simp [run]
    | succ n => simp [run, ih]

theorem run_length (reg : Registry) (ops : List Op) (w : World) :
    (run reg ops w).1.length = ops.length := by
  induction ops generalizing w with
  | nil => simp [run]
  | cons o os ih => simp [run, ih]

theorem sinceInvalidate_snoc (es : List Event) (e : Event) :
    sinceInvalidate (es ++ [e]) = if e.clears then [] else sinceInvalidate es ++ [e] := by
  induction es with
  | nil => by_cases h : e.clears = true <;> simp [sinceInvalidate, h]
  | cons x xs ih =>
    simp only [List.cons_append, sinceInvalidate, List.any_append, List.any_cons, List.any_nil,
      Bool.or_false, Bool.or_eq_true]
    by_cases he : e.clears = true
    · simp [he, ih]
    · by_cases hx : xs.any Event.clears = true
      · simp [he, hx, ih]
      · by_cases hxc : x.clears = true <;> simp [he, hx, hxc]

theorem firstConstructed_snoc (es : List Event) (e : Event) :
    firstConstructed (es ++ [e]) = (firstConstructed es).or e.constructed := by
  have h1 : List.findSome? Event.constructed [e] = e.constructed := by
    cases h : e.constructed <;> simp [List.findSome?, h]
  simp [firstConstructed, List.findSome?_append, h1]

theorem firstConstructed_nil : firstConstructed [] = none := rfl

/-- In a run from the start, the cache holds exactly the client of the first
successful construction since the last `invalidate("config")`, every cached or
returned client was built by an earlier `NewRESTClientForHost` call, and these
calls only ever increase in number. -/
theorem run_invariant (reg : Registry) (ops : List Op) :
    (run reg ops World.start).2.client
        = firstConstructed (sinceInvalidate (run reg ops World.start).1) ∧
    (∀ c, (run reg ops World.start).2.client = some c →
        c.serial < (run reg ops World.start).2.dials) ∧
    (∀ c b, Event.got (.ok c) b ∈ (run reg ops World.start).1 →
        c.serial < (run reg ops World.start).2.dials) := by
  induction ops using List.reverseRecOn with
  | nil => exact ⟨rfl, by simp [run, World.start], by simp [run]⟩
  | append_singleton ops op ih =>
    obtain ⟨i1, i2, i3⟩ := ih
    rw [run_append]
    set r := run reg ops World.start with hr
    cases op with
    | invalidate key =>
      simp only [perform, sinceInvalidate_snoc, Event.clears]
      by_cases hk : key = "config"
      · subst hk
        refine ⟨by simp [invalidate, reset, firstConstructed_nil], ?_, ?_⟩
        · intro c hc; simp [invalidate, reset] at hc
        · intro c b hm
          simp only [List.mem_append, List.mem_singleton] at hm
          rcases hm with hm | hm
          · simpa [invalidate, reset] using i3 c b hm
          · cases hm
      · have hb : (key == "config") = false := by simpa using hk
        have hinv : invalidate key r.2 = r.2 := by simp [invalidate, hk]
        rw [hinv]
        refine ⟨?_, i2, ?_⟩
        · simp [hb, firstConstructed_snoc, Event.constructed, i1]
        · intro c b hm
          simp only [List.mem_append, List.mem_singleton] at hm
          rcases hm with hm | hm
          · exact i3 c b hm
          · cases hm
    | get s =>
      simp only [perform, sinceInvalidate_snoc, Event.clears, Bool.false_eq_true, if_false,
        firstConstructed_snoc]
      cases hc : r.2.client with
      | some c0 =>
        rw [getClient_cached hc]
        have hlt := i2 c0 hc
        refine ⟨?_, ?_, ?_⟩
        · simp [← i1, hc]
        · intro c h; rw [hc] at h; cases h; exact hlt
        · intro c b hm
          simp only [List.mem_append, List.mem_singleton] at hm
          rcases hm with hm | hm
          · exact i3 c b hm
          · simp only [Event.got.injEq, Except.ok.injEq] at hm
            rw [hm.1]; exact hlt
      | none =>
        rw [getClient_empty hc]
        rcases hs : getClientSlow s reg r.2 with ⟨res, w2⟩
        cases res with
        | ok c =>
          obtain ⟨cfg, _, _, _, _, hcv, hw⟩ := getClientSlow_ok hs
          have hser : c.serial = r.2.dials := by rw [hcv]
          refine ⟨?_, ?_, ?_⟩
          · simp [← i1, hc, hw, Event.constructed, Except.toBool]
          · intro c1 h1
            simp only [hw, Option.some.injEq] at h1
            subst h1
            simp [hw, hser]
          · intro c1 b hm
            simp only [List.mem_append, List.mem_singleton] at hm
            rcases hm with hm | hm
            · have := i3 c1 b hm
              simp only [hw]; omega
            · simp only [Event.got.injEq, Except.ok.injEq] at hm
              rw [hm.1]; simp [hw, hser]
        | error err =>
          obtain ⟨hcl, hd⟩ := getClientSlow_error hs
          have hnone : w2.client = none := by
            rcases hcl with h | h
            · exact h
            · rw [h, hc]
          refine ⟨?_, ?_, ?_⟩
          · simp [← i1, hc, hnone, Event.constructed, Except.toBool]
          · intro c h; simp [hnone] at h
          · intro c b hm
            simp only [List.mem_append, List.mem_singleton] at hm
            rcases hm with hm | hm
            · have := i3 c b hm
              simp only; omega
            · cases hm

theorem run_getElem (reg : Registry) (ops : List Op) (i : Nat) (e : Event)
    (h : (run reg ops World.start).1[i]? = some e) :
    ∃ op, ops[i]? = some op ∧
      e = (perform reg op (run reg (ops.take i) World.start).2).1 ∧
      run reg (ops.take (i + 1)) World.start
        = ((run reg (ops.take i) World.start).1 ++ [e],
           (perform reg op (run reg (ops.take i) World.start).2).2) := by
  have hlt : i < ops.length := by
    have := (List.getElem?_eq_some_iff.1 h).1
    rwa [run_length] at this
  refine ⟨ops[i], List.getElem?_eq_getElem hlt, ?_⟩
  have htake : ops.take (i + 1) = ops.take i ++ [ops[i]] := by
    rw [List.take_succ, List.getElem?_eq_getElem hlt]; rfl
  have hrun := run_append reg (ops.take i) ops[i] World.start
  rw [← htake] at hrun
  have he : e = (perform reg ops[i] (run reg (ops.take i) World.start).2).1 := by
    have h1 : ((run reg ops World.start).1.take (i + 1))[i]? = some e := by
      rw [List.getElem?_take_of_lt (by omega)]; exact h
    rw [run_take, hrun] at h1
    have hlen : (run reg (ops.take i) World.start).1.length = i := by
      rw [run_length, List.length_take]; omega
    rw [List.getElem?_append_right (by omega)] at h1
    simp [hlen] at h1
    exact h1.symm
  exact ⟨he, by rw [hrun, ← he]⟩

/-! ## The client cache under interleaving -/

theorem getClientSlow_ready {s : Storage} {reg : Registry} {cfg : harborConfig}
    (h : Ready s reg cfg) (w : World) :
    getClientSlow s reg w =
      (.ok (clientOf cfg w.dials),
       { client := some (clientOf cfg w.dials), dials := w.dials + 1, loads := w.loads + 1,
         calls := w.calls }) := by
  obtain ⟨h1, h2, h3, h4, h5⟩ := h
  simp [getClientSlow, h1, newClient, h2, h3, h4, h5, clientOf]

theorem getClientSlow_dials (s : Storage) (reg : Registry) (w : World) :
    (getClientSlow s reg w).2.dials ≤ w.dials + 1 := by
  unfold getClientSlow
  simp only
  split
  · simp
  · split <;> (simp only; split <;> simp)

theorem exec_append (s : Storage) (reg : Registry) (a b : List Nat) (cf : Conf) :
    exec s reg (a ++ b) cf = exec s reg b (exec s reg a cf) := by
  simp [exec, List.foldl_append]

theorem exec_cons (s : Storage) (reg : Registry) (i : Nat) (rest : List Nat) (cf : Conf) :
    exec s reg (i :: rest) cf = exec s reg rest (step s reg i cf) := rfl

theorem exec_nil (s : Storage) (reg : Registry) (cf : Conf) : exec s reg [] cf = cf := rfl

theorem step_length (s : Storage) (reg : Registry) (i : Nat) (cf : Conf) :
    (step s reg i cf).pcs.length = cf.pcs.length := by
  unfold step
  split <;> try rfl
  all_goals first
    | (split <;> simp)
    | simp

theorem exec_length (s : Storage) (reg : Registry) (sched : List Nat) (cf : Conf) :
    (exec s reg sched cf).pcs.length = cf.pcs.length := by
  induction sched generalizing cf with
  | nil => rfl
  | cons i rest ih => rw [exec_cons, ih, step_length]

theorem countP_set_fresh {α : Type} (p : α → Bool) (l : List α) (i : Nat) (a : α)
    (h : i < l.length) (hold : p l[i] = false) :
    (l.set i a).countP p = l.countP p + (if p a then 1 else 0) := by
  rw [List.countP_set p l i a h, hold]
  simp

theorem countP_set_same {α : Type} (p : α → Bool) (l : List α) (i : Nat) (a : α)
    (h : i < l.length) (hold : p l[i] = true) (hnew : p a = true) :
    (l.set i a).countP p = l.countP p := by
  have hle := List.boole_getElem_le_countP p l i h
  rw [hold] at hle
  simp only [if_true] at hle
  rw [List.countP_set p l i a h, hold, hnew]
  simp only [if_true]
  omega

/-- Constructions never outnumber the callers that have left the exclusive
section. -/
theorem step_bound (s : Storage) (reg : Registry) (i : Nat) (cf : Conf)
    (h : cf.world.dials ≤ cf.pcs.countP Pc.past) :
    (step s reg i cf).world.dials ≤ (step s reg i cf).pcs.countP Pc.past := by
  unfold step
  cases hpc : cf.pcs[i]? with
  | none => exact h
  | some pc =>
    obtain ⟨hlt, hget⟩ := List.getElem?_eq_some_iff.1 hpc
    cases pc with
    | start =>
      simp only
      split
      · exact h
      · simp only [countP_set_fresh Pc.past cf.pcs i _ hlt (by rw [hget]; rfl)]
        exact Nat.le_add_right_of_le h
    | reading =>
      simp only
      split <;>
        (simp only [countP_set_fresh Pc.past cf.pcs i _ hlt (by rw [hget]; rfl)]
         exact Nat.le_add_right_of_le h)
    | found c =>
      simp only [countP_set_fresh Pc.past cf.pcs i _ hlt (by rw [hget]; rfl)]
      exact Nat.le_add_right_of_le h
    | missed =>
      simp only [countP_set_fresh Pc.past cf.pcs i _ hlt (by rw [hget]; rfl)]
      exact Nat.le_add_right_of_le h
    | waiting =>
      simp only
      split
      · exact h
      · simp only [countP_set_fresh Pc.past cf.pcs i _ hlt (by rw [hget]; rfl)]
        exact Nat.le_add_right_of_le h
    | writing =>
      simp only [countP_set_fresh Pc.past cf.pcs i _ hlt (by rw [hget]; rfl), Pc.past, if_true]
      have := getClientSlow_dials s reg cf.world
      omega
    | built r =>
      have hc := countP_set_same Pc.past cf.pcs i (Pc.done r) hlt (by rw [hget]; rfl) rfl
      simp only [hc]
      exact h
    | done r => exact h

theorem exec_bound (s : Storage) (reg : Registry) (sched : List Nat) (cf : Conf)
    (h : cf.world.dials ≤ cf.pcs.countP Pc.past) :
    (exec s reg sched cf).world.dials ≤ (exec s reg sched cf).pcs.countP Pc.past := by
  induction sched generalizing cf with
  | nil => exact h
  | cons i rest ih => rw [exec_cons]; exact ih _ (step_bound s reg i cf h)

theorem exec_dials_le (s : Storage) (reg : Registry) (sched : List Nat) (n : Nat) :
    (exec s reg sched (Conf.init n)).world.dials ≤ n := by
  have h := exec_bound s reg sched (Conf.init n) (by simp [Conf.init, World.start])
  have hl := exec_length s reg sched (Conf.init n)
  have hc := List.countP_le_length Pc.past (l := (exec s reg sched (Conf.init n)).pcs)
  have hn : (Conf.init n).pcs.length = n := by simp [Conf.init]
  rw [hn] at hl
  omega

theorem Pc.within_mono {d e : Nat} (h : d ≤ e) : ∀ pc : Pc, pc.within d → pc.within e
  | .start, _ => trivial
  | .reading, _ => trivial
  | .missed, _ => trivial
  | .waiting, _ => trivial
  | .writing, _ => trivial
  | .found _, hw => Nat.lt_of_lt_of_le hw h
  | .built _, ⟨c, hc, hlt⟩ => ⟨c, hc, Nat.lt_of_lt_of_le hlt h⟩
  | .done _, ⟨c, hc, hlt⟩ => ⟨c, hc, Nat.lt_of_lt_of_le hlt h⟩

theorem sound_set {cf : Conf} {i : Nat} {pc : Pc} (h : Sound cf)
    (hpc : pc.within cf.world.dials) :
    ∀ x ∈ cf.pcs.set i pc, x.within cf.world.dials := by
  intro x hx
  rcases List.mem_or_eq_of_mem_set hx with hx | hx
  · exact h.2 x hx
  · rw [hx]; exact hpc

theorem step_sound {s : Storage} {reg : Registry} {cfg : harborConfig} (hR : Ready s reg cfg)
    (i : Nat) (cf : Conf) (h : Sound cf) : Sound (step s reg i cf) := by
  unfold step
  cases hpc : cf.pcs[i]? with
  | none => exact h
  | some pc =>
    obtain ⟨hlt, hget⟩ := List.getElem?_eq_some_iff.1 hpc
    have hmem : pc ∈ cf.pcs := by rw [← hget]; exact List.getElem_mem hlt
    have hold := h.2 pc hmem
    cases pc with
    | start =>
      simp only
      split
      · exact h
      · exact ⟨h.1, sound_set h trivial⟩
    | reading =>
      simp only
      split
      · rename_i c hc
        exact ⟨h.1, sound_set h (h.1 c hc)⟩
      · exact ⟨h.1, sound_set h trivial⟩
    | found c => exact ⟨h.1, sound_set h ⟨c, rfl, hold⟩⟩
    | missed => exact ⟨h.1, sound_set h trivial⟩
    | waiting =>
      simp only
      split
      · exact h
      · exact ⟨h.1, sound_set h trivial⟩
    | writing =>
      simp only [getClientSlow_ready hR]
      refine ⟨?_, ?_⟩
      · intro c hc
        simp only [Option.some.injEq] at hc
        rw [← hc]
        exact Nat.lt_succ_self _
      · intro x hx
        rcases List.mem_or_eq_of_mem_set hx with hx | hx
        · exact Pc.within_mono (Nat.le_succ _) x (h.2 x hx)
        · rw [hx]; exact ⟨_, rfl, Nat.lt_succ_self _⟩
    | built r => exact ⟨h.1, sound_set h hold⟩
    | done r => exact h

theorem exec_sound {s : Storage} {reg : Registry} {cfg : harborConfig} (hR : Ready s reg cfg)
    (sched : List Nat) (cf : Conf) (h : Sound cf) : Sound (exec s reg sched cf) := by
  induction sched generalizing cf with
  | nil => exact h
  | cons i rest ih => rw [exec_cons]; exact ih _ (step_sound hR i cf h)

theorem init_sound (n : Nat) : Sound (Conf.init n) := by
  refine ⟨by simp [Conf.init, World.start], ?_⟩
  intro pc hpc
  have : pc = Pc.start := by
    simp only [Conf.init] at hpc
    exact List.eq_of_mem_replicate hpc
  rw [this]; trivial

/-- A caller that runs alone from a state in which the lock is free goes through
`getClient` as the sequential function describes it. -/
theorem exec_alone (s : Storage) (reg : Registry) (i : Nat) (cf : Conf)
    (hr : cf.readers = 0) (hw : cf.writer = false) (hpc : cf.pcs[i]? = some .start) :
    exec s reg (List.replicate 6 i) cf =
      { world := (getClient s reg cf.world).2, readers := 0, writer := false,
        pcs := cf.pcs.set i (.done (getClient s reg cf.world).1) } := by
  obtain ⟨hlt, _⟩ := List.getElem?_eq_some_iff.1 hpc
  obtain ⟨w, r, wr, pcs⟩ := cf
  simp only at hr hw hpc hlt
  subst hr hw
  cases hc : w.client with
  | some c =>
    rw [getClient_cached hc]
    simp [exec, List.replicate, step, hpc, hlt, hc]
  | none =>
    rw [getClient_empty hc]
    simp [exec, List.replicate, step, hpc, hlt, hc]

theorem oneAtATime_succ (k : Nat) : oneAtATime (k + 1) = oneAtATime k ++ List.replicate 6 k := by
  simp [oneAtATime, List.range_succ, List.flatMap_append]

theorem oneAtATime_exec {s : Storage} {reg : Registry} {cfg : harborConfig}
    (hR : Ready s reg cfg) (n : Nat) : ∀ k, k ≤ n →
    (exec s reg (oneAtATime k) (Conf.init n)).readers = 0 ∧
    (exec s reg (oneAtATime k) (Conf.init n)).writer = false ∧
    (∀ j, j < k →
      (exec s reg (oneAtATime k) (Conf.init n)).pcs[j]? = some (.done (.ok (clientOf cfg 0)))) ∧
    (∀ j, k ≤ j → j < n → (exec s reg (oneAtATime k) (Conf.init n)).pcs[j]? = some .start) ∧
    (exec s reg (oneAtATime k) (Conf.init n)).world
      = if k = 0 then World.start else builtWorld cfg := by
  intro k
  induction k with
  | zero =>
    intro _
    refine ⟨rfl, rfl, ?_, ?_, rfl⟩
    · intro j hj; omega
    · intro j _ hj
      simp [oneAtATime, exec, Conf.init, hj]
  | succ k ih =>
    intro hk
    obtain ⟨h1, h2, h3, h4, h5⟩ := ih (by omega)
    rw [oneAtATime_succ, exec_append]
    set cf := exec s reg (oneAtATime k) (Conf.init n) with hcf
    have hstart : cf.pcs[k]? = some .start := h4 k (le_refl _) (by omega)
    rw [exec_alone s reg k cf h1 h2 hstart]
    have hlen : k < cf.pcs.length := (List.getElem?_eq_some_iff.1 hstart).1
    have hget : getClient s reg cf.world = (.ok (clientOf cfg 0), builtWorld cfg) := by
      rw [h5]
      by_cases hk0 : k = 0
      · rw [if_pos hk0, getClient_empty rfl, getClientSlow_ready hR]
        rfl
      · rw [if_neg hk0]
        exact getClient_cached rfl
    rw [hget]
    refine ⟨rfl, rfl, ?_, ?_, by simp⟩
    · intro j hj
      by_cases hjk : j = k
      · subst hjk
        simp [List.getElem?_set_self hlen]
      · rw [List.getElem?_set_ne (Ne.symm hjk)]
        exact h3 j (by omega)
    · intro j hj hjn
      rw [List.getElem?_set_ne (by omega)]
      exact h4 j (by omega) hjn

theorem sample_ready (role : harborRoleEntry) :
    Ready (sampleStorage role) sampleRegistry sampleConfig :=
  ⟨rfl, by decide, by decide, by decide, rfl⟩

/-! ## Error paths of `getClient` and `robotAccountRevoke` -/

theorem newClient_incomplete (reg : Registry) (serial : Nat) (cfg : harborConfig)
    (h : cfg.Username = "" ∨ cfg.Password = "" ∨ cfg.URL = "") :
    newClient reg serial (some cfg) =
      (.error (.msg (if cfg.Username = "" then "client username was not defined"
                     else if cfg.Password = "" then "client password was not defined"
                     else "client URL was not defined")), false) := by
  unfold newClient
  simp only
  by_cases hu : cfg.Username = ""
  · simp only [hu, if_true]
  · by_cases hp : cfg.Password = ""
    · simp only [hu, hp, if_true, if_false]
    · have hurl : cfg.URL = "" := by
        rcases h with h | h | h
        · exact absurd h hu
        · exact absurd h hp
        · exact h
      simp only [hu, hp, hurl, if_true, if_false]

theorem getClientSlow_incomplete (s : Storage) (reg : Registry) (w : World)
    (stored : Option harborConfig) (cfg : harborConfig) (hs : s.getConfig = .ok stored)
    (hcfg : stored.getD { URL := "", Username := "", Password := "" } = cfg)
    (h : cfg.Username = "" ∨ cfg.Password = "" ∨ cfg.URL = "") :
    getClientSlow s reg w =
      (.error (.msg (if cfg.Username = "" then "client username was not defined"
                     else if cfg.Password = "" then "client password was not defined"
                     else "client URL was not defined")),
       { client := none, dials := w.dials, loads := w.loads + 1, calls := w.calls }) := by
  unfold getClientSlow
  simp only [hs, hcfg, newClient_incomplete reg _ cfg h]
  simp

theorem getClientSlow_storage_error (s : Storage) (reg : Registry) (w : World) (err : GoError)
    (hs : s.getConfig = .error err) :
    getClientSlow s reg w = (.error err, { w with loads := w.loads + 1 }) := by
  unfold getClientSlow
  simp only [hs]

theorem robotAccountRevoke_of_error {s : Storage} {reg : Registry} {w w1 : World}
    {err : GoError} (req : Request) (hg : getClient s reg w = (.error err, w1)) :
    robotAccountRevoke s reg req w = (.error err, w1) := by
  simp only [robotAccountRevoke, hg]

theorem robotAccountRevoke_of_missing {s : Storage} {reg : Registry} {req : Request}
    {w w1 : World} {client : harborClient}
    (hg : getClient s reg w = (.ok client, w1))
    (hn : req.Secret.InternalData.lookup "robot_account_name" = none) :
    robotAccountRevoke s reg req w
      = (.error (.msg "robot_account_name is missing on the lease"), w1) := by
  simp only [robotAccountRevoke, hg, hn]

theorem robotAccountRevoke_of_mistyped {s : Storage} {reg : Registry} {req : Request}
    {w w1 : World} {client : harborClient} {v : Value}
    (hg : getClient s reg w = (.ok client, w1))
    (hn : req.Secret.InternalData.lookup "robot_account_name" = some v)
    (hv : ∀ account, v ≠ .str account) :
    robotAccountRevoke s reg req w = (.error (.msg "unable convert robot_account_name"), w1) := by
  cases v with
  | str account => exact absurd rfl (hv account)
  | int n => simp only [robotAccountRevoke, hg, hn]
  | bool b => simp only [robotAccountRevoke, hg, hn]

/-! ## The claims -/

/-- C1: the robot account name that `createCreds` sends to Harbor is
`"vault." + r + "." + t` (`t` in decimal) when the display name `d` is empty and
`"vault." + r + "." + s + "." + t` otherwise, where `s` is `d` with every
character outside `[A-Za-z0-9._-]` replaced by one `-` and every other character
kept, so `s` is as long as `d` and has only characters of the set.  The set is
written out character by character; the class of the pattern is exactly that
set.  Every request `createCreds` adds to the record of Harbor calls carries
that name, and one is added whenever a client is available. -/
theorem robot_account_name_sent (s : Storage) (reg : Registry) (req : Request)
    (roleName : String) (role : harborRoleEntry) (now : Int) (w : World) :
    (robotAccountName roleName req.DisplayName now =
      if req.DisplayName = "" then "vault." ++ roleName ++ "." ++ fmtD now
      else "vault." ++ roleName ++ "." ++
        replaceAllString (fun c => !inClass c) req.DisplayName "-" ++ "." ++ fmtD now)
    ∧ parseD (fmtD now) = now
    ∧ (∀ c : Char, inClass c = true ↔
        c ∈ "ABCDEFGHIJKLMNOPQRSTUVWXYZabcdefghijklmnopqrstuvwxyz0123456789._-".data)
    ∧ replaceAllString (fun c => !inClass c) req.DisplayName "-"
        = ⟨req.DisplayName.data.map fun c =>
            if c ∈ "ABCDEFGHIJKLMNOPQRSTUVWXYZabcdefghijklmnopqrstuvwxyz0123456789._-".data
            then c else '-'⟩
    ∧ (replaceAllString (fun c => !inClass c) req.DisplayName "-").length
        = req.DisplayName.length
    ∧ (∀ c ∈ (replaceAllString (fun c => !inClass c) req.DisplayName "-").data,
        c ∈ "ABCDEFGHIJKLMNOPQRSTUVWXYZabcdefghijklmnopqrstuvwxyz0123456789._-".data)
    ∧ robotAccountName "r1" "a b@c/é.x_y-Z9" 17 = "vault.r1.a-b-c--.x_y-Z9.17"
    ∧ (∀ call ∈ (createCreds s reg req roleName role now w).2.calls,
        call ∈ w.calls ∨ ∃ via body, call = RemoteCall.newRobotAccount via body ∧
          body.Name = robotAccountName roleName req.DisplayName now)
    ∧ (∀ client w1, getClient s reg w = (.ok client, w1) →
        ∃ body, (createCreds s reg req roleName role now w).2.calls
            = w.calls ++ [RemoteCall.newRobotAccount client body] ∧
          body.Name = robotAccountName roleName req.DisplayName now) := by
  refine ⟨?_, parseD_fmtD now, inClass_iff, replaceAllString_listed _, ?_, ?_, by decide, ?_, ?_⟩
  · unfold robotAccountName
    by_cases h : req.DisplayName = ""
    · simp only [ne_eq, h, not_true_eq_false, if_false, if_true, String.append_empty]
    · simp only [ne_eq, h, not_false_eq_true, if_true, if_false, String.append_assoc]
  · rw [replaceAllString_dash]
    show (List.map _ req.DisplayName.data).length = req.DisplayName.data.length
    exact List.length_map _ _
  · rw [replaceAllString_dash]
    intro c hc
    simp only [List.mem_map] at hc
    obtain ⟨a, _, rfl⟩ := hc
    apply (inClass_iff _).1
    by_cases ha : inClass a = true
    · simp [ha]
    · have hf : inClass a = false := by simpa using ha
      simp only [hf, Bool.false_eq_true, if_false]
      decide
  · intro call hcall
    rw [createCreds_world] at hcall
    rcases hg : getClient s reg w with ⟨r, w1⟩
    cases r with
    | error err =>
      rw [createRobotAccount_of_error _ _ hg] at hcall
      have := getClient_calls s reg w
      rw [hg] at this
      left; rw [← this]; exact hcall
    | ok client =>
      rw [createRobotAccount_of_client _ _ hg] at hcall
      simp only [List.mem_append, List.mem_singleton] at hcall
      rcases hcall with h | h
      · exact Or.inl h
      · exact Or.inr ⟨client, _, h, rfl⟩
  · intro client w1 hg
    rw [createCreds_world, createRobotAccount_of_client _ _ hg]
    exact ⟨_, rfl, rfl⟩

/-- C2, as stated, fails: with a registry that returns the account under the
name `robot$vault.r1.17`, the name sent and stored in the internal data is
`vault.r1.17`, and the returned token is not the encoding of
`vault.r1.17:s3cret` but of `robot$vault.r1.17:s3cret`. -/
theorem auth_token_not_of_sent_name :
    ∃ resp w2 body,
      createCreds (sampleStorage sampleRole) sampleRegistry sampleRequest "r1" sampleRole 17
        sampleWorld = (.ok resp, w2) ∧
      w2.calls = [RemoteCall.newRobotAccount sampleClient body] ∧
      body.Name = "vault.r1.17" ∧
      resp.Secret.InternalData.lookup "robot_account_name" = some (.str "vault.r1.17") ∧
      resp.Data.lookup "robot_account_secret" = some (.str "s3cret") ∧
      resp.Data.lookup "robot_account_auth_token"
        ≠ some (.str ⟨encodeToString (bytes ("vault.r1.17" ++ ":" ++ "s3cret"))⟩) ∧
      resp.Data.lookup "robot_account_auth_token"
        = some (.str ⟨encodeToString (bytes ("robot$vault.r1.17" ++ ":" ++ "s3cret"))⟩) :=
  ⟨_, _, _, sample_createCreds sampleRole, rfl, rfl, by decide, by decide, by decide, by decide⟩

/-- C2 (amended): for every successful issuance the returned auth_token is the
standard base64 encoding of name + ":" + secret, where name and secret are the
ones Harbor returned for the created account (the returned `robot_account_name`
and `robot_account_secret`); decoding the token yields exactly those bytes; and
when Harbor returns the name it was sent, the token encodes the computed name. -/
theorem auth_token_encodes_returned_name (s : Storage) (reg : Registry) (req : Request)
    (roleName : String) (role : harborRoleEntry) (now : Int) (w w2 : World) (resp : Response)
    (h : createCreds s reg req roleName role now w = (.ok resp, w2)) :
    ∃ client created,
      w2.calls = w.calls ++ [RemoteCall.newRobotAccount client
        (robotCreateOf (robotAccountName roleName req.DisplayName now) role)] ∧
      reg.newRobotAccount w.calls
        (robotCreateOf (robotAccountName roleName req.DisplayName now) role) = .ok created ∧
      resp.Data.lookup "robot_account_name" = some (.str created.Name) ∧
      resp.Data.lookup "robot_account_secret" = some (.str created.Secret) ∧
      resp.Data.lookup "robot_account_auth_token"
        = some (.str ⟨encodeToString (bytes (created.Name ++ ":" ++ created.Secret))⟩) ∧
      decodeString (encodeToString (bytes (created.Name ++ ":" ++ created.Secret)))
        = some (bytes (created.Name ++ ":" ++ created.Secret)) ∧
      (created.Name = robotAccountName roleName req.DisplayName now →
        resp.Data.lookup "robot_account_auth_token"
          = some (.str ⟨encodeToString
              (bytes (robotAccountName roleName req.DisplayName now ++ ":" ++ created.Secret))⟩)) := by
  obtain ⟨client, w1, created, _, hcr, hresp, hcalls⟩ := createCreds_ok h
  subst hresp
  refine ⟨client, created, hcalls, hcr, rfl, rfl, rfl, decode_encode_bytes _, ?_⟩
  intro hname
  rw [← hname]
  rfl

theorem auth_token_encodes_returned_name_witness :
    createCreds (sampleStorage sampleRole) sampleRegistry sampleRequest "r1" sampleRole 17
        sampleWorld
      = (.ok (issuedResponse "r1" "vault.r1.17" sampleRole
            { ID := 1, Name := "robot$vault.r1.17", Secret := "s3cret" }),
         { sampleWorld with calls :=
            [RemoteCall.newRobotAccount sampleClient (robotCreateOf "vault.r1.17" sampleRole)] }) ∧
    ∃ created,
      sampleRegistry.newRobotAccount sampleWorld.calls
        (robotCreateOf (robotAccountName "r1" sampleRequest.DisplayName 17) sampleRole)
          = .ok created ∧
      (issuedResponse "r1" "vault.r1.17" sampleRole
          { ID := 1, Name := "robot$vault.r1.17", Secret := "s3cret" }).Data.lookup
        "robot_account_auth_token"
        = some (.str ⟨encodeToString (bytes (created.Name ++ ":" ++ created.Secret))⟩) :=
  ⟨sample_createCreds sampleRole,
    (auth_token_encodes_returned_name (sampleStorage sampleRole) sampleRegistry sampleRequest "r1"
      sampleRole 17 sampleWorld _ _ (sample_createCreds sampleRole)).elim
      fun _ hc => hc.elim fun created hcr => ⟨created, hcr.2.1, hcr.2.2.2.2.1⟩⟩

/-- C3: for every role whose `max_ttl` is a non-negative whole number of seconds
`secs` (held in an int64 count of nanoseconds), the request `createRobotAccount`
sends has `Duration = floor(secs / 86400) + 1`, that is
`floor(max_ttl_hours / 24) + 1`: 1 for 0 seconds and for one hour, 2 for exactly
24 hours, and at least 1 always. -/
theorem duration_days_sent (s : Storage) (reg : Registry) (name : String)
    (role : harborRoleEntry) (w w1 : World) (client : harborClient) (secs : Int)
    (hs : 0 ≤ secs) (hrole : role.MaxTTL = secs * 1000000000) (hfit : role.MaxTTL < 2 ^ 63)
    (hg : getClient s reg w = (.ok client, w1)) :
    ∃ body,
      (createRobotAccount s reg name role w).2.calls
        = w.calls ++ [RemoteCall.newRobotAccount client body] ∧
      body.Duration = secs / 86400 + 1 ∧
      body.Duration = secs / 3600 / 24 + 1 ∧
      1 ≤ body.Duration ∧
      (secs = 0 → body.Duration = 1) ∧
      (secs = 3600 → body.Duration = 1) ∧
      (secs = 86400 → body.Duration = 2) := by
  have hd : (robotCreateOf name role).Duration = secs / 86400 + 1 :=
    maxTTLByDay_seconds role secs hs hrole hfit
  refine ⟨robotCreateOf name role, ?_, hd, ?_, ?_, ?_, ?_, ?_⟩
  · rw [createRobotAccount_of_client _ _ hg]
  · rw [hd]; omega
  · rw [hd]; omega
  · intro h; rw [hd, h]; rfl
  · intro h; rw [hd, h]; rfl
  · intro h; rw [hd, h]; rfl

theorem duration_days_sent_witness :
    (0 : Int) ≤ 60 ∧ sampleRole.MaxTTL = 60 * 1000000000 ∧ sampleRole.MaxTTL < 2 ^ 63 ∧
    ∃ body,
      (createRobotAccount (sampleStorage sampleRole) sampleRegistry "vault.r1.17" sampleRole
          sampleWorld).2.calls
        = sampleWorld.calls ++ [RemoteCall.newRobotAccount sampleClient body] ∧
      body.Duration = 1 :=
  ⟨by decide, rfl, by decide,
    (duration_days_sent (sampleStorage sampleRole) sampleRegistry "vault.r1.17" sampleRole
      sampleWorld sampleWorld sampleClient 60 (by decide) rfl (by decide)
      (sample_getClient sampleRole)).elim
      fun body hb => ⟨body, hb.1, hb.2.1.trans (by decide)⟩⟩

/-- C4, as stated, fails: a role that leaves `max_ttl` to the platform gets an
account valid for one day, while the lease of the same issuance has the platform
default of 768 hours as TTL and MaxTTL. -/
theorem validity_below_default_lease :
    ∃ resp w2 body,
      createCreds (sampleStorage bareRole) sampleRegistry sampleRequest "r1" bareRole 17
        sampleWorld = (.ok resp, w2) ∧
      w2.calls = [RemoteCall.newRobotAccount sampleClient body] ∧
      validity body.Duration = 24 * Hour ∧
      leasePolicy (768 * Hour) (768 * Hour) resp.Secret = (768 * Hour, 768 * Hour) ∧
      ¬ (leasePolicy (768 * Hour) (768 * Hour) resp.Secret).1 < validity body.Duration ∧
      ¬ (leasePolicy (768 * Hour) (768 * Hour) resp.Secret).2 < validity body.Duration := by
  have hd : (robotCreateOf "vault.r1.17" bareRole).Duration = 1 :=
    maxTTLByDay_seconds bareRole 0 (by decide) rfl (by decide)
  refine ⟨_, _, _, sample_createCreds bareRole, rfl, ?_, by decide, ?_, ?_⟩
  · rw [hd]; decide
  · rw [hd]; decide
  · rw [hd]; decide

/-- C4 (amended): for every role with `max_ttl > 0`, the registry-side validity
of the account created by an issuance (its duration in days times 24 hours) is
strictly longer than `role.max_ttl`, which is the MaxTTL of the lease of that
issuance, and strictly longer than the TTL of that lease whenever this TTL does
not exceed `role.max_ttl`. -/
theorem validity_exceeds_role_max_ttl (s : Storage) (reg : Registry) (req : Request)
    (roleName : String) (role : harborRoleEntry) (now : Int) (w w2 : World) (resp : Response)
    (defaultTTL defaultMaxTTL : Int)
    (hpos : 0 < role.MaxTTL) (hfit : role.MaxTTL < 2 ^ 63)
    (h : createCreds s reg req roleName role now w = (.ok resp, w2)) :
    ∃ client body,
      w2.calls = w.calls ++ [RemoteCall.newRobotAccount client body] ∧
      (leasePolicy defaultTTL defaultMaxTTL resp.Secret).2 = role.MaxTTL ∧
      (leasePolicy defaultTTL defaultMaxTTL resp.Secret).2 < validity body.Duration ∧
      ((leasePolicy defaultTTL defaultMaxTTL resp.Secret).1 ≤ role.MaxTTL →
        (leasePolicy defaultTTL defaultMaxTTL resp.Secret).1 < validity body.Duration) := by
  obtain ⟨client, w1, created, _, _, hresp, hcalls⟩ := createCreds_ok h
  subst hresp
  have hd := (maxTTLByDay_bounds role hpos.le hfit).1
  have hH : Hour = 3600000000000 := by norm_num [Hour]
  have hv : role.MaxTTL < validity (robotCreateOf (robotAccountName roleName req.DisplayName now)
      role).Duration := by
    show role.MaxTTL < maxTTLByDay role * (24 * Hour)
    rw [hH] at hd ⊢
    have : (role.MaxTTL / 3600000000000 / 24 + 1) * (24 * 3600000000000)
        ≤ maxTTLByDay role * (24 * 3600000000000) :=
      Int.mul_le_mul_of_nonneg_right hd (by norm_num)
    omega
  have hm : (leasePolicy defaultTTL defaultMaxTTL
      (issuedResponse roleName (robotAccountName roleName req.DisplayName now) role
        created).Secret).2 = role.MaxTTL := by
    simp [leasePolicy, issuedResponse, hpos]
  refine ⟨client, _, hcalls, hm, ?_, ?_⟩
  · rw [hm]; exact hv
  · intro hle; exact lt_of_le_of_lt hle hv

theorem validity_exceeds_role_max_ttl_witness :
    0 < sampleRole.MaxTTL ∧ sampleRole.MaxTTL < 2 ^ 63 ∧
    ∃ body : RobotCreate, sampleRole.MaxTTL < validity body.Duration :=
  ⟨by decide, by decide,
    (validity_exceeds_role_max_ttl (sampleStorage sampleRole) sampleRegistry sampleRequest "r1"
      sampleRole 17 sampleWorld _ _ 0 0 (by decide) (by decide)
      (sample_createCreds sampleRole)).elim
      fun _ hc => hc.elim fun body hb => ⟨body, hb.2.1 ▸ hb.2.2.1⟩⟩

/-- C5, as stated, fails: the internal lease data of the sample issuance is not
the two-entry map `{role: r1, robot_account_name: vault.r1.17}`; the response
built by `b.Secret(harborRobotAccountType).Response` also carries
`secret_type = "robot_account"`, a key the two-entry map does not have. -/
theorem internal_data_has_secret_type :
    ∃ resp w2 body,
      createCreds (sampleStorage sampleRole) sampleRegistry sampleRequest "r1" sampleRole 17
        sampleWorld = (.ok resp, w2) ∧
      w2.calls = [RemoteCall.newRobotAccount sampleClient body] ∧
      body.Name = "vault.r1.17" ∧
      resp.Secret.InternalData ≠ [("role", .str "r1"), ("robot_account_name", .str body.Name)] ∧
      resp.Secret.InternalData.lookup "secret_type" = some (.str "robot_account") ∧
      List.lookup "secret_type"
        [("role", Value.str "r1"), ("robot_account_name", Value.str body.Name)] = none :=
  ⟨_, _, _, sample_createCreds sampleRole, rfl, rfl, by decide, by decide, by decide⟩

/-- C5 (amended): after a successful issuance for role `r` the internal lease
data is `{role: r, robot_account_name: n, secret_type: "robot_account"}`, with
`n` the name of the one request sent to Harbor and `secret_type` the entry the
response constructor of the platform adds; a later revoke that is handed this
`robot_account_name` and has a client makes exactly one Harbor call, the
delete-by-name of exactly `n`, and succeeds when that delete succeeds. -/
theorem revoke_deletes_issued_name (s : Storage) (reg : Registry) (req : Request)
    (roleName : String) (role : harborRoleEntry) (now : Int) (w w2 : World) (resp : Response)
    (h : createCreds s reg req roleName role now w = (.ok resp, w2)) :
    ∃ client body,
      w2.calls = w.calls ++ [RemoteCall.newRobotAccount client body] ∧
      resp.Secret.InternalData
        = [("role", .str roleName), ("robot_account_name", .str body.Name),
           ("secret_type", .str "robot_account")] ∧
      resp.Secret.InternalData.lookup "role" = some (.str roleName) ∧
      resp.Secret.InternalData.lookup "robot_account_name" = some (.str body.Name) ∧
      ∀ (s2 : Storage) (reg2 : Registry) (req2 : Request) (v v1 : World) (client2 : harborClient),
        req2.Secret.InternalData.lookup "robot_account_name"
          = resp.Secret.InternalData.lookup "robot_account_name" →
        getClient s2 reg2 v = (.ok client2, v1) →
        (robotAccountRevoke s2 reg2 req2 v).2.calls
          = v.calls ++ [RemoteCall.deleteRobotAccountByName client2 body.Name] ∧
        (reg2.deleteRobotAccountByName v.calls body.Name = none →
          (robotAccountRevoke s2 reg2 req2 v).1 = .ok none) := by
  obtain ⟨client, w1, created, _, _, hresp, hcalls⟩ := createCreds_ok h
  subst hresp
  refine ⟨client, _, hcalls, rfl, rfl, rfl, ?_⟩
  intro s2 reg2 req2 v v1 client2 hdata hg
  have hn : req2.Secret.InternalData.lookup "robot_account_name"
      = some (.str (robotAccountName roleName req.DisplayName now)) := by
    rw [hdata]; rfl
  rw [robotAccountRevoke_of_name hg hn]
  refine ⟨rfl, ?_⟩
  intro hdel
  show (match reg2.deleteRobotAccountByName v.calls (robotAccountName roleName req.DisplayName now) with
        | some err => Except.error (GoError.wrap "error revoking robot account: " err)
        | none => Except.ok none) = Except.ok none
  have hdel2 : reg2.deleteRobotAccountByName v.calls
      (robotAccountName roleName req.DisplayName now) = none := hdel
  rw [hdel2]

theorem revoke_deletes_issued_name_witness :
    ∃ body : RobotCreate,
      (issuedResponse "r1" "vault.r1.17" sampleRole
          { ID := 1, Name := "robot$vault.r1.17", Secret := "s3cret" }).Secret.InternalData
        = [("role", .str "r1"), ("robot_account_name", .str body.Name),
           ("secret_type", .str "robot_account")] ∧
      (robotAccountRevoke (sampleStorage sampleRole) sampleRegistry
          { DisplayName := "", Secret := (issuedResponse "r1" "vault.r1.17" sampleRole
            { ID := 1, Name := "robot$vault.r1.17", Secret := "s3cret" }).Secret } sampleWorld).2.calls
        = [RemoteCall.deleteRobotAccountByName sampleClient body.Name] :=
  (revoke_deletes_issued_name (sampleStorage sampleRole) sampleRegistry sampleRequest "r1"
    sampleRole 17 sampleWorld _ _ (sample_createCreds sampleRole)).elim
    fun _ hc => hc.elim fun body hb =>
      ⟨body, hb.2.1, (hb.2.2.2.2 (sampleStorage sampleRole) sampleRegistry _ sampleWorld
        sampleWorld sampleClient rfl (sample_getClient sampleRole)).1⟩

/-- C6, as stated, fails: against one and the same stored role that leaves both
durations at zero, two renew calls whose incoming leases carry 30 s / 60 s and
45 s / 90 s succeed and return those incoming values, so the returned TTL and
MaxTTL differ between the two calls. -/
theorem renew_keeps_incoming_lease :
    ∃ resp1 resp2 left1 left2,
      robotAccountRenew (sampleStorage bareRole) (leaseRequest 30000000000 60000000000)
        = (.ok resp1, left1) ∧
      robotAccountRenew (sampleStorage bareRole) (leaseRequest 45000000000 90000000000)
        = (.ok resp2, left2) ∧
      resp1.Secret.TTL = 30000000000 ∧ resp1.Secret.MaxTTL = 60000000000 ∧
      resp2.Secret.TTL = 45000000000 ∧ resp2.Secret.MaxTTL = 90000000000 ∧
      resp1.Secret.TTL ≠ resp2.Secret.TTL ∧ resp1.Secret.MaxTTL ≠ resp2.Secret.MaxTTL :=
  ⟨_, _, _, _, @robotAccountRenew_of_role _ _ "r1" bareRole rfl rfl,
    @robotAccountRenew_of_role _ _ "r1" bareRole rfl rfl,
    by decide, by decide, by decide, by decide, by decide, by decide⟩

/-- C6 (amended): for every successful renew, the TTL of the returned lease is
`role.ttl` of the current stored role when that is positive and otherwise the
TTL carried by the incoming lease, and likewise for MaxTTL; so when the current
role has `ttl > 0` and `max_ttl > 0`, any other successful renew against the same
role returns the same TTL and MaxTTL whatever its incoming lease carries. -/
theorem renew_policy_from_role (s : Storage) (req : Request) (resp : Response) (left : Secret)
    (h : robotAccountRenew s req = (.ok resp, left)) :
    ∃ name role,
      req.Secret.InternalData.lookup "role" = some (.str name) ∧
      s.getRole name = .ok (some role) ∧
      resp.Secret.TTL = (if role.TTL > 0 then role.TTL else req.Secret.TTL) ∧
      resp.Secret.MaxTTL = (if role.MaxTTL > 0 then role.MaxTTL else req.Secret.MaxTTL) ∧
      left = resp.Secret ∧
      (0 < role.TTL → 0 < role.MaxTTL →
        ∀ (req2 : Request) (resp2 : Response) (left2 : Secret),
          req2.Secret.InternalData.lookup "role" = some (.str name) →
          robotAccountRenew s req2 = (.ok resp2, left2) →
          resp2.Secret.TTL = resp.Secret.TTL ∧ resp2.Secret.MaxTTL = resp.Secret.MaxTTL) := by
  obtain ⟨name, role, hn, hr⟩ := robotAccountRenew_ok h
  rw [robotAccountRenew_of_role hn hr] at h
  simp only [Prod.mk.injEq, Outcome.ok.injEq] at h
  obtain ⟨h1, h2⟩ := h
  subst h1 h2
  refine ⟨name, role, hn, hr, rfl, rfl, rfl, ?_⟩
  intro ht hm req2 resp2 left2 hn2 h2
  rw [robotAccountRenew_of_role hn2 hr] at h2
  simp only [Prod.mk.injEq, Outcome.ok.injEq] at h2
  obtain ⟨h3, _⟩ := h2
  subst h3
  simp [ht, hm]

theorem renew_policy_from_role_witness :
    ∃ name role,
      (leaseRequest 1 2).Secret.InternalData.lookup "role" = some (.str name) ∧
      (sampleStorage sampleRole).getRole name = .ok (some role) ∧
      (30000000000 : Int) = (if role.TTL > 0 then role.TTL else (leaseRequest 1 2).Secret.TTL) :=
  (renew_policy_from_role (sampleStorage sampleRole) (leaseRequest 1 2) _ _
    (@robotAccountRenew_of_role (sampleStorage sampleRole) (leaseRequest 1 2) "r1" sampleRole
      rfl rfl)).elim
    fun name hc => hc.elim fun role hr => ⟨name, role, hr.1, hr.2.1, hr.2.2.1⟩

/-- C7: a renew whose internal data names a role that is no longer in storage
fails with the role-not-found error, returns no response (hence no lease
policy), and leaves the lease it was given as it was. -/
theorem renew_fails_without_role (s : Storage) (req : Request) (name : String)
    (hn : req.Secret.InternalData.lookup "role" = some (.str name))
    (hr : s.getRole name = .ok none) :
    robotAccountRenew s req
      = (.error (.msg "error retrieving role: role is nil"), req.Secret) ∧
    (robotAccountRenew s req).2.TTL = req.Secret.TTL ∧
    (robotAccountRenew s req).2.MaxTTL = req.Secret.MaxTTL ∧
    ∀ resp, (robotAccountRenew s req).1 ≠ .ok resp := by
  have h : robotAccountRenew s req
      = (.error (.msg "error retrieving role: role is nil"), req.Secret) := by
    simp only [robotAccountRenew, hn, hr]
  rw [h]
  exact ⟨rfl, rfl, rfl, fun resp hc => by cases hc⟩

theorem renew_fails_without_role_witness :
    robotAccountRenew noRoleStorage (leaseRequest 30000000000 60000000000)
      = (.error (.msg "error retrieving role: role is nil"),
         (leaseRequest 30000000000 60000000000).Secret) :=
  (renew_fails_without_role noRoleStorage (leaseRequest 30000000000 60000000000) "r1"
    rfl rfl).1

/-- C8: two generated names built from different timestamps differ, whatever
the role names and display names (non-negative timestamps included); hence
issuances at pairwise distinct timestamps give pairwise distinct names, and two
successful issuances for the same role and requester that read different
timestamps send, and store in their internal data, two different names. -/
theorem names_differ_with_time :
    (∀ (r1 d1 r2 d2 : String) (t1 t2 : Int), t1 ≠ t2 →
      robotAccountName r1 d1 t1 ≠ robotAccountName r2 d2 t2) ∧
    (∀ issuances : List (String × String × Int),
      (issuances.map fun i => i.2.2).Nodup →
      (issuances.map fun i => robotAccountName i.1 i.2.1 i.2.2).Nodup) ∧
    (∀ (s : Storage) (reg : Registry) (req : Request) (roleName : String)
      (role : harborRoleEntry) (t1 t2 : Int) (w wA wB : World) (respA respB : Response),
      t1 ≠ t2 →
      createCreds s reg req roleName role t1 w = (.ok respA, wA) →
      createCreds s reg req roleName role t2 wA = (.ok respB, wB) →
      respA.Secret.InternalData.lookup "robot_account_name"
        ≠ respB.Secret.InternalData.lookup "robot_account_name" ∧
      ∃ clientA bodyA clientB bodyB,
        wB.calls = w.calls ++ [RemoteCall.newRobotAccount clientA bodyA,
          RemoteCall.newRobotAccount clientB bodyB] ∧
        bodyA.Name ≠ bodyB.Name) := by
  refine ⟨?_, ?_, ?_⟩
  · intro r1 d1 r2 d2 t1 t2 hne h
    exact hne (robotAccountName_time_inj h)
  · intro issuances hnd
    apply List.Nodup.map_on _ (List.Nodup.of_map _ hnd)
    intro x hx y hy hxy
    exact List.inj_on_of_nodup_map hnd hx hy (robotAccountName_time_inj hxy)
  · intro s reg req roleName role t1 t2 w wA wB respA respB hne hA hB
    obtain ⟨cA, _, _, _, _, hrA, hcA⟩ := createCreds_ok hA
    obtain ⟨cB, _, _, _, _, hrB, hcB⟩ := createCreds_ok hB
    have hnames : robotAccountName roleName req.DisplayName t1
        ≠ robotAccountName roleName req.DisplayName t2 :=
      fun h => hne (robotAccountName_time_inj h)
    subst hrA hrB
    refine ⟨?_, cA, robotCreateOf (robotAccountName roleName req.DisplayName t1) role, cB,
      robotCreateOf (robotAccountName roleName req.DisplayName t2) role, ?_, hnames⟩
    · intro h
      have h2 : some (Value.str (robotAccountName roleName req.DisplayName t1))
          = some (Value.str (robotAccountName roleName req.DisplayName t2)) := h
      simp only [Option.some.injEq, Value.str.injEq] at h2
      exact hnames h2
    · rw [hcB, hcA]; simp

/-- C9: in every run of `getClient` and `invalidate` calls executed one at a
time from start-up, (1) a `getClient` that finds a cached client returns that
client and changes nothing (no config load, no construction); (2) each
successful `getClient` returns the client of the first successful construction
since the most recent `invalidate("config")` before it (since start-up if there
was none); (3) a `getClient` that begins after `invalidate("config")` has
completed returns, when it succeeds, a client that no earlier call returned and
that is not the previously cached one: it loads the config once and constructs
a new client from the config stored at that moment, which becomes the cached
one. -/
theorem client_cache_runs (reg : Registry) (ops : List Op) :
    (∀ (s : Storage) (w : World) (c : harborClient), w.client = some c →
      getClient s reg w = (.ok c, w)) ∧
    (∀ (i : Nat) (c : harborClient) (b : Bool),
      (run reg ops World.start).1[i]? = some (.got (.ok c) b) →
      firstConstructed (sinceInvalidate ((run reg ops World.start).1.take (i + 1))) = some c) ∧
    (∀ (s : Storage) (c : harborClient),
      (getClient s reg (invalidate "config" (run reg ops World.start).2)).1 = .ok c →
      (∀ c0 b, Event.got (.ok c0) b ∈ (run reg ops World.start).1 → c ≠ c0) ∧
      (run reg ops World.start).2.client ≠ some c ∧
      ∃ cfg, s.getConfig = .ok (some cfg) ∧
        c = { serial := (run reg ops World.start).2.dials, host := cfg.URL ++ "/api/v2.0",
              username := cfg.Username, password := cfg.Password } ∧
        (getClient s reg (invalidate "config" (run reg ops World.start).2)).2
          = { client := some c, dials := (run reg ops World.start).2.dials + 1,
              loads := (run reg ops World.start).2.loads + 1,
              calls := (run reg ops World.start).2.calls }) := by
  refine ⟨fun s w c h => getClient_cached h, ?_, ?_⟩
  · intro i c b h
    obtain ⟨op, _, he, hrun⟩ := run_getElem reg ops i _ h
    have hinv := (run_invariant reg (ops.take (i + 1))).1
    rw [run_take, ← hinv, hrun]
    cases op with
    | invalidate key => simp [perform] at he
    | get s =>
      simp only [perform, Event.got.injEq] at he
      show (getClient s reg (run reg (ops.take i) World.start).2).2.client = some c
      rw [getClient_client, ← he.1]
      rfl
  · intro s c h
    obtain ⟨_, i2, i3⟩ := run_invariant reg ops
    set r := run reg ops World.start with hr
    have hcl : (invalidate "config" r.2).client = none := by simp [invalidate, reset]
    rw [getClient_empty hcl] at h ⊢
    rcases hs : getClientSlow s reg (invalidate "config" r.2) with ⟨res, w2⟩
    rw [hs] at h
    simp only at h
    subst h
    obtain ⟨cfg, hcfg, _, _, _, hcv, hw⟩ := getClientSlow_ok hs
    have hd : (invalidate "config" r.2).dials = r.2.dials := by simp [invalidate, reset]
    have hl : (invalidate "config" r.2).loads = r.2.loads := by simp [invalidate, reset]
    have hca : (invalidate "config" r.2).calls = r.2.calls := by simp [invalidate, reset]
    rw [hd] at hcv
    rw [hd, hl, hca] at hw
    have hser : c.serial = r.2.dials := by rw [hcv]
    refine ⟨?_, ?_, cfg, hcfg, hcv, hw⟩
    · intro c0 b hm heq
      have := i3 c0 b hm
      rw [← heq, hser] at this
      exact lt_irrefl _ this
    · intro hc
      have := i2 c hc
      rw [hser] at this
      exact lt_irrefl _ this

/-- C10 at the failing input: two callers that both test the empty cache before
either takes the exclusive lock.  When the second one holds the exclusive lock
the first has already cached its client (one config load, one construction);
the second does not test the cache again, loads the config and constructs
again, so the two calls end with two config loads, two constructions and two
different instances, the second overwriting the first in the cache. -/
theorem overlapping_calls_build_twice :
    exec (sampleStorage sampleRole) sampleRegistry (overlapping.take 10) (Conf.init 2)
      = { world := { client := some (builtClient 0), dials := 1, loads := 1, calls := [] },
          readers := 0, writer := true,
          pcs := [.done (.ok (builtClient 0)), .writing] } ∧
    exec (sampleStorage sampleRole) sampleRegistry overlapping (Conf.init 2)
      = { world := { client := some (builtClient 1), dials := 2, loads := 2, calls := [] },
          readers := 0, writer := false,
          pcs := [.done (.ok (builtClient 0)), .done (.ok (builtClient 1))] } ∧
    builtClient 0 ≠ builtClient 1 :=
  ⟨rfl, rfl, by decide⟩

/-- The steps of `getClient` under interleaving, with a complete config.  A
caller that finds a client under the shared lock returns it without loading the
config or constructing.  A caller in the exclusive section loads the config and
constructs whatever the cache holds at that moment.  From an empty cache, N
callers under any schedule construct at most N times and every caller that has
returned holds a client built during these calls; N callers run one at a time
construct once and all return the same instance. -/
theorem get_client_tests_cache_once (s : Storage) (reg : Registry) (cfg : harborConfig)
    (hR : Ready s reg cfg) :
    (∀ (cf : Conf) (i : Nat) (c : harborClient),
      cf.pcs[i]? = some .reading → cf.world.client = some c →
      (exec s reg [i, i] cf).world = cf.world ∧
      (exec s reg [i, i] cf).pcs[i]? = some (.done (.ok c))) ∧
    (∀ (cf : Conf) (i : Nat), cf.pcs[i]? = some .writing →
      step s reg i cf =
        { cf with
          world := { client := some (clientOf cfg cf.world.dials), dials := cf.world.dials + 1,
                     loads := cf.world.loads + 1, calls := cf.world.calls }
          pcs := cf.pcs.set i (.built (.ok (clientOf cfg cf.world.dials))) }) ∧
    (∀ (n : Nat) (sched : List Nat),
      (exec s reg sched (Conf.init n)).world.dials ≤ n ∧
      ∀ (i : Nat) (r : Except GoError harborClient),
        (exec s reg sched (Conf.init n)).pcs[i]? = some (.done r) →
        1 ≤ (exec s reg sched (Conf.init n)).world.dials ∧
        ∃ c, r = .ok c ∧ c.serial < (exec s reg sched (Conf.init n)).world.dials) ∧
    (∀ n : Nat, 0 < n →
      (exec s reg (oneAtATime n) (Conf.init n)).world.dials = 1 ∧
      (exec s reg (oneAtATime n) (Conf.init n)).world.loads = 1 ∧
      ∀ j, j < n →
        (exec s reg (oneAtATime n) (Conf.init n)).pcs[j]? = some (.done (.ok (clientOf cfg 0)))) := by
  refine ⟨?_, ?_, ?_, ?_⟩
  · intro cf i c hpc hc
    obtain ⟨hlt, _⟩ := List.getElem?_eq_some_iff.1 hpc
    simp [exec, step, hpc, hc, hlt]
  · intro cf i hpc
    simp [step, hpc, getClientSlow_ready hR]
  · intro n sched
    refine ⟨exec_dials_le s reg sched n, ?_⟩
    intro i r hpc
    have hs := exec_sound hR sched (Conf.init n) (init_sound n)
    obtain ⟨hlt, hget⟩ := List.getElem?_eq_some_iff.1 hpc
    have hmem : Pc.done r ∈ (exec s reg sched (Conf.init n)).pcs := by
      rw [← hget]; exact List.getElem_mem hlt
    obtain ⟨c, hc, hser⟩ := hs.2 _ hmem
    exact ⟨by omega, c, hc, hser⟩
  · intro n hn
    obtain ⟨_, _, h3, _, h5⟩ := oneAtATime_exec hR n n (le_refl n)
    rw [if_neg (by omega)] at h5
    exact ⟨by rw [h5]; rfl, by rw [h5]; rfl, h3⟩

theorem get_client_tests_cache_once_witness :
    Ready (sampleStorage sampleRole) sampleRegistry sampleConfig ∧
    (exec (sampleStorage sampleRole) sampleRegistry overlapping (Conf.init 2)).world.dials ≤ 2 ∧
    (exec (sampleStorage sampleRole) sampleRegistry (oneAtATime 2) (Conf.init 2)).world.dials = 1 :=
  ⟨sample_ready sampleRole,
    ((get_client_tests_cache_once (sampleStorage sampleRole) sampleRegistry sampleConfig
      (sample_ready sampleRole)).2.2.1 2 overlapping).1,
    ((get_client_tests_cache_once (sampleStorage sampleRole) sampleRegistry sampleConfig
      (sample_ready sampleRole)).2.2.2 2 (by decide)).1⟩

/-- C11: on an empty cache, `getClient` fails with the configuration error of
the first empty field (username, then password, then URL) for every stored
config with an empty username, password or URL, and with the username error when
no config is stored (the empty config is used); it then makes no
`NewRESTClientForHost` call and the cache stays empty. A storage read error is
returned unchanged, again with no construction attempt and an empty cache. -/
theorem get_client_config_errors (s : Storage) (reg : Registry) (w : World)
    (hw : w.client = none) :
    (∀ cfg : harborConfig, s.getConfig = .ok (some cfg) →
      cfg.Username = "" ∨ cfg.Password = "" ∨ cfg.URL = "" →
      getClient s reg w =
        (.error (.msg (if cfg.Username = "" then "client username was not defined"
                       else if cfg.Password = "" then "client password was not defined"
                       else "client URL was not defined")),
         { client := none, dials := w.dials, loads := w.loads + 1, calls := w.calls })) ∧
    (s.getConfig = .ok none →
      getClient s reg w =
        (.error (.msg "client username was not defined"),
         { client := none, dials := w.dials, loads := w.loads + 1, calls := w.calls })) ∧
    (∀ err : GoError, s.getConfig = .error err →
      getClient s reg w =
        (.error err,
         { client := none, dials := w.dials, loads := w.loads + 1, calls := w.calls })) := by
  rw [getClient_empty hw]
  refine ⟨?_, ?_, ?_⟩
  · intro cfg hs h
    exact getClientSlow_incomplete s reg w (some cfg) cfg hs rfl h
  · intro hs
    exact getClientSlow_incomplete s reg w none _ hs rfl (Or.inl rfl)
  · intro err hs
    rw [getClientSlow_storage_error s reg w err hs, ← hw]

theorem get_client_config_errors_witness :
    World.start.client = none ∧
    getClient unconfiguredStorage sampleRegistry World.start =
      (.error (.msg "client username was not defined"),
       { client := none, dials := 0, loads := 1, calls := [] }) :=
  ⟨rfl, (get_client_config_errors unconfiguredStorage sampleRegistry World.start rfl).2.1 rfl⟩

/-- C12: with a client available, a revoke whose internal data has no
`robot_account_name` entry, or has one that is not a string, returns the
lease-data error of that case and adds no call to the record of Harbor calls;
every revoke call adds either nothing or exactly one delete-by-name to that
record; and when the delete fails, revoke returns an error that wraps the remote
failure. -/
theorem revoke_lease_data_errors (s : Storage) (reg : Registry) (req : Request) (w : World) :
    (∀ (client : harborClient) (w1 : World), getClient s reg w = (.ok client, w1) →
      req.Secret.InternalData.lookup "robot_account_name" = none →
      robotAccountRevoke s reg req w
        = (.error (.msg "robot_account_name is missing on the lease"), w1) ∧
      (robotAccountRevoke s reg req w).2.calls = w.calls) ∧
    (∀ (client : harborClient) (w1 : World) (v : Value),
      getClient s reg w = (.ok client, w1) →
      req.Secret.InternalData.lookup "robot_account_name" = some v →
      (∀ account, v ≠ .str account) →
      robotAccountRevoke s reg req w
        = (.error (.msg "unable convert robot_account_name"), w1) ∧
      (robotAccountRevoke s reg req w).2.calls = w.calls) ∧
    ((robotAccountRevoke s reg req w).2.calls = w.calls ∨
      ∃ client account, (robotAccountRevoke s reg req w).2.calls
        = w.calls ++ [RemoteCall.deleteRobotAccountByName client account]) ∧
    (∀ (client : harborClient) (w1 : World) (account : String) (err : GoError),
      getClient s reg w = (.ok client, w1) →
      req.Secret.InternalData.lookup "robot_account_name" = some (.str account) →
      reg.deleteRobotAccountByName w.calls account = some err →
      robotAccountRevoke s reg req w
        = (.error (.wrap "error revoking robot account: " err),
           { w1 with calls := w.calls ++ [RemoteCall.deleteRobotAccountByName client account] })) := by
  have hcalls : ∀ (r : Except GoError harborClient) (w1 : World),
      getClient s reg w = (r, w1) → w1.calls = w.calls := by
    intro r w1 hg
    have := getClient_calls s reg w
    rw [hg] at this
    exact this
  refine ⟨?_, ?_, ?_, ?_⟩
  · intro client w1 hg hn
    rw [robotAccountRevoke_of_missing hg hn]
    exact ⟨rfl, hcalls _ _ hg⟩
  · intro client w1 v hg hn hv
    rw [robotAccountRevoke_of_mistyped hg hn hv]
    exact ⟨rfl, hcalls _ _ hg⟩
  · rcases hg : getClient s reg w with ⟨r, w1⟩
    cases r with
    | error err =>
      rw [robotAccountRevoke_of_error req hg]
      exact Or.inl (hcalls _ _ hg)
    | ok client =>
      cases hn : req.Secret.InternalData.lookup "robot_account_name" with
      | none =>
        rw [robotAccountRevoke_of_missing hg hn]
        exact Or.inl (hcalls _ _ hg)
      | some v =>
        cases v with
        | str account =>
          rw [robotAccountRevoke_of_name hg hn]
          exact Or.inr ⟨client, account, rfl⟩
        | int n =>
          rw [robotAccountRevoke_of_mistyped hg hn (by intro a h; cases h)]
          exact Or.inl (hcalls _ _ hg)
        | bool b =>
          rw [robotAccountRevoke_of_mistyped hg hn (by intro a h; cases h)]
          exact Or.inl (hcalls _ _ hg)
  · intro client w1 account err hg hn hdel
    rw [robotAccountRevoke_of_name hg hn, hdel]

/-- C13 at the failing input: a renew whose lease carries the number 42 under
`role` does not return an error, it panics at the unchecked type assertion
`roleRaw.(string)`; so does every renew whose `role` entry is not a string.  The
other half of the claim holds: without a `role` entry renew returns the
lease-data error whatever the storage holds (no role is read) and leaves the
lease as it was. -/
theorem renew_panics_on_mistyped_role :
    robotAccountRenew (sampleStorage sampleRole) mistypedRequest
      = (.panic "interface conversion: interface {} is not string", mistypedRequest.Secret) ∧
    (∀ err, (robotAccountRenew (sampleStorage sampleRole) mistypedRequest).1 ≠ .error err) ∧
    (∀ (s : Storage) (req : Request) (v : Value),
      req.Secret.InternalData.lookup "role" = some v → (∀ name, v ≠ .str name) →
      robotAccountRenew s req
        = (.panic "interface conversion: interface {} is not string", req.Secret)) ∧
    (∀ (s : Storage) (req : Request), req.Secret.InternalData.lookup "role" = none →
      robotAccountRenew s req
        = (.error (.msg "secret is missing role internal data"), req.Secret)) := by
  refine ⟨rfl, ?_, ?_, ?_⟩
  · intro err h
    have h2 : (Outcome.panic "interface conversion: interface {} is not string" :
        Outcome Response) = .error err := h
    cases h2
  · intro s req v hn hv
    cases v with
    | str name => exact absurd rfl (hv name)
    | int n => simp only [robotAccountRenew, hn]
    | bool b => simp only [robotAccountRenew, hn]
  · intro s req hn
    simp only [robotAccountRenew, hn]

end Harbor
